import Mathlib

/-!
# binmap `Graph` (src/graph.cpp): store and reachability engine

A shallow embedding of the `Graph` class: the Boost adjacency list `graph_`
(vertex storage indexed by handle, edge list), the key index `mapping_`
(a `std::map` from path to vertex handle) and the lazily built
`distance_matrix_`.  Member functions are state-passing functions that
return the outcome of the call together with the state after it.
`assert` is modelled as active: a failed assertion ends the call with
`Failure.assertion` in the state reached so far.
-/

namespace Binmap

/-- Keys are `boost::filesystem::path` values; only equality matters here. -/
abbrev Path := String

/-- Modelled from the spec: class `Hash` is declared in a header that is not
part of the sources at hand; the spec calls it a content hash value, attached
at insertion.  Only equality of hashes matters here. -/
abbrev Hash := String

/-- Modelled from the spec: `graph_type` is declared in `binmap/graph.hpp`,
which is not part of the sources at hand.  A vertex carries the two
attributes the spec lists, read and written in graph.cpp through the
`vertex_name_t` and `vertex_hash_t` properties. -/
structure Vertex where
  name : Path
  hash : Hash
deriving DecidableEq, Repr

/-- Ways a call can end without a result. -/
inductive Failure where
  /-- an `assert` did not hold -/
  | assertion : Failure
  /-- `std::out_of_range` thrown by `hash(key)`, carrying `key.string()` -/
  | out_of_range : String → Failure
  /-- an index outside the allocated storage (undefined behaviour in C++) -/
  | out_of_bounds : Failure
deriving DecidableEq, Repr

/-- The rows of `distance_matrix_` (`std::vector<int>*`, one vector per vertex). -/
abbrev DistanceMatrix := List (List Int)

/-- Modelled from the spec: the data members of `Graph` are declared in
`binmap/graph.hpp`, which is not part of the sources at hand; they are the
three members graph.cpp uses.  `vertices` and `edges` are the contents of
`graph_`: a vertex handle is a dense index into `vertices` (graph.cpp indexes
`distance_matrix_` with it), an edge is a pair source, target, kept in
insertion order, parallel edges included.  `mapping_` is the key index, a
`std::map` from path to handle, as a list of entries.  `distance_matrix_` is
`none` for the null pointer. -/
structure Graph where
  vertices : List Vertex
  edges : List (Nat × Nat)
  mapping_ : List (Path × Nat)
  distance_matrix_ : Option DistanceMatrix
deriving DecidableEq

deriving instance DecidableEq for Except

/-- Outcome of a member function together with the state after the call. -/
abbrev Outcome (α : Type) := Except Failure α × Graph

/-- Constructor `Graph::Graph()`: empty `graph_`, empty `mapping_`, null `distance_matrix_`. -/
def Graph.empty : Graph :=
  { vertices := [], edges := [], mapping_ := [], distance_matrix_ := none }

/-! ## `std::map` operations on the key index -/

/-- Map operation `m.find(k)`: the handle stored under `k`, `none` for `end()`. -/
def mapFind (m : List (Path × Nat)) (k : Path) : Option Nat :=
  m.lookup k

/-- Map operation `m[k] = v`: overwrite the entry of `k` when there is one, insert it otherwise. -/
def mapAssign (m : List (Path × Nat)) (k : Path) (v : Nat) : List (Path × Nat) :=
  if (mapFind m k).isSome then m.map (fun p => if p.1 = k then (p.1, v) else p)
  else m ++ [(k, v)]

/-- Map operation `m[k]` read through the non-const `operator[]`: a missing key is inserted
with the value-initialised handle `0`. -/
def mapIndex (m : List (Path × Nat)) (k : Path) : Nat × List (Path × Nat) :=
  match mapFind m k with
  | some v => (v, m)
  | none => (0, m ++ [(k, 0)])

/-! ## Boost graph primitives -/

/-- Library call `boost::num_vertices(graph_)`. -/
def num_vertices (g : Graph) : Nat := g.vertices.length

/-- Library call `boost::add_vertex(graph_)`: a default-constructed vertex is appended and
its handle, the previous vertex count, is returned. -/
def add_vertex (g : Graph) : Nat × Graph :=
  (g.vertices.length, { g with vertices := g.vertices ++ [⟨"", ""⟩] })

/-- Library call `boost::put(boost::vertex_name_t(), graph_, v, name)`. -/
def put_name (g : Graph) (v : Nat) (name : Path) : Graph :=
  { g with vertices := g.vertices.modify (fun x => { x with name := name }) v }

/-- Library call `boost::put(boost::vertex_hash_t(), graph_, v, h)`. -/
def put_hash (g : Graph) (v : Nat) (h : Hash) : Graph :=
  { g with vertices := g.vertices.modify (fun x => { x with hash := h }) v }

/-- Library call `boost::out_edges(v, graph_)`: the edges whose source is `v`. -/
def out_edges (g : Graph) (v : Nat) : List (Nat × Nat) :=
  g.edges.filter (fun e => e.1 = v)

/-- Library call `boost::in_edges(v, graph_)`: the edges whose target is `v`. -/
def in_edges (g : Graph) (v : Nat) : List (Nat × Nat) :=
  g.edges.filter (fun e => e.2 = v)

/-! ## Vertex/edge store -/

/-- Member function `Graph::has_node`: `mapping_.find(path) != mapping_.end()`. -/
def has_node (g : Graph) (path : Path) : Bool :=
  (mapFind g.mapping_ path).isSome

/-- Member function `Graph::size`. -/
def size (g : Graph) : Nat := num_vertices g

/-- Member function `Graph::key(vd)`: the name property of `vd`. -/
def key (g : Graph) (vd : Nat) : Except Failure Path :=
  match g.vertices[vd]? with
  | some v => .ok v.name
  | none => .error .out_of_bounds

/-- Member function `Graph::hash(vd)`: the hash property of `vd`. -/
def hash_vd (g : Graph) (vd : Nat) : Except Failure Hash :=
  match g.vertices[vd]? with
  | some v => .ok v.hash
  | none => .error .out_of_bounds

/-- Member function `Graph::hash(key)`: throws `std::out_of_range(key.string())` for a key
that is not indexed, otherwise reads the hash property of its vertex. -/
def hash (k : Path) (g : Graph) : Outcome Hash :=
  match mapFind g.mapping_ k with
  | none => (.error (.out_of_range k), g)
  | some vd => (hash_vd g vd, g)

/-- Member function `Graph::add_node`. -/
def add_node (input_file : Path) (input_hash : Hash) (g : Graph) : Outcome Unit :=
  if has_node g input_file then (.error .assertion, g)
  else
    let (v, g1) := add_vertex g
    let g2 := { g1 with mapping_ := mapAssign g1.mapping_ input_file v }
    let g3 := put_name g2 v input_file
    let g4 := put_hash g3 v input_hash
    (.ok (), g4)

/-- Member function `Graph::add_edge`. -/
def add_edge (from_ to_ : Path) (g : Graph) : Outcome Unit :=
  if !(has_node g from_) then (.error .assertion, g)
  else if !(has_node g to_) then (.error .assertion, g)
  else
    let (u, m1) := mapIndex g.mapping_ from_
    let (v, m2) := mapIndex m1 to_
    (.ok (), { g with mapping_ := m2, edges := g.edges ++ [(u, v)] })

/-- Loop of `Graph::successors`: insert `key(target(e))` for each out-edge. -/
def insertTargets (g : Graph) : List (Nat × Nat) → Finset Path → Except Failure (Finset Path)
  | [], s => .ok s
  | e :: es, s =>
    match key g e.2 with
    | .ok k => insertTargets g es (insert k s)
    | .error f => .error f

/-- Loop of `Graph::predecessors`: insert `key(source(e))` for each in-edge. -/
def insertSources (g : Graph) : List (Nat × Nat) → Finset Path → Except Failure (Finset Path)
  | [], s => .ok s
  | e :: es, s =>
    match key g e.1 with
    | .ok k => insertSources g es (insert k s)
    | .error f => .error f

/-- Member function `Graph::successors`: `edge_begin(key)` asserts `has_node(key)`, then the
keys of the targets of the out-edges are inserted into `succs`. -/
def successors (succs : Finset Path) (k : Path) (g : Graph) : Except Failure (Finset Path) × Graph :=
  if !(has_node g k) then (.error .assertion, g)
  else
    match mapFind g.mapping_ k with
    | some v => (insertTargets g (out_edges g v) succs, g)
    | none => (.error .out_of_bounds, g)

/-- Member function `Graph::predecessors`: no assertion; `mapping_.find(key)->second` is
dereferenced directly, which is undefined for a missing key. -/
def predecessors (preds : Finset Path) (k : Path) (g : Graph) : Except Failure (Finset Path) × Graph :=
  match mapFind g.mapping_ k with
  | some v => (insertSources g (in_edges g v) preds, g)
  | none => (.error .out_of_bounds, g)

/-! ## Reachability engine -/

/-- The constant `std::numeric_limits<int>::max()` for the 32-bit `int`. -/
def INT_MAX : Int := 2147483647

/-- Value of an `int` expression whose mathematical value is `x`: reduced
modulo `2^32` into the range of a 32-bit two's complement `int`. -/
def wrap32 (x : Int) : Int := (x + 2147483648) % 4294967296 - 2147483648

/-- Library call `boost::closed_plus<int>`: the default `distance_combine`; the sum is
closed at `inf`. -/
def closed_plus (inf a b : Int) : Int :=
  if a = inf then inf
  else if b = inf then inf
  else wrap32 (a + b)

/-- Library call `boost::detail::min_with_compare` with `std::less<int>`. -/
def min_with_compare (x y : Int) : Int :=
  if x < y then x else y

/-- Cell read `d[i][j]`.  Inside the algorithm every index is a vertex handle
of the graph the matrix was allocated for, so the defaults are never used. -/
def mget (d : DistanceMatrix) (i j : Nat) : Int :=
  (d.getD i []).getD j 0

/-- Cell write `d[i][j] = v`. -/
def mset (d : DistanceMatrix) (i j : Nat) (v : Int) : DistanceMatrix :=
  d.set i ((d.getD i []).set j v)

/-- Loop `for (boost::tie(i, last) = vertices(g); i != last; i++) body`:
the body runs for the handles `0, 1, ..., n - 1` in this order. -/
def forVertices {σ : Type} (n : Nat) (body : Nat → σ → σ) (s : σ) : σ :=
  match n with
  | 0 => s
  | m + 1 => body m (forVertices m body s)

/-- One visit of the innermost statement of `floyd_warshall_dispatch`,
for the triple `k`, `i`, `j` (the test on `d[i][k]` is made by the caller). -/
def relax (inf : Int) (k i j : Nat) (d : DistanceMatrix) : DistanceMatrix :=
  if mget d k j ≠ inf then
    mset d i j (min_with_compare (mget d i j) (closed_plus inf (mget d i k) (mget d k j)))
  else d

/-- Library call `boost::detail::floyd_warshall_dispatch`: the triple loop.  The Boolean
result (absence of a negative cycle) is discarded by the caller and not modelled. -/
def floyd_warshall_dispatch (n : Nat) (inf : Int) (d : DistanceMatrix) : DistanceMatrix :=
  forVertices n (fun k d =>
    forVertices n (fun i d =>
      if mget d i k ≠ inf then forVertices n (fun j d => relax inf k i j d) d
      else d) d) d

/-- The edge loop of `floyd_warshall_all_pairs_shortest_paths`, with the
weight `w` of every edge (`static_property_map<int>(1)` in `graph.cpp`).
Boost visits the edges grouped by source vertex; with one weight for all
edges the cells written do not depend on the order. -/
def init_edges (inf w : Int) (edges : List (Nat × Nat)) (d : DistanceMatrix) : DistanceMatrix :=
  edges.foldl (fun d e =>
    if mget d e.1 e.2 ≠ inf then mset d e.1 e.2 (min_with_compare w (mget d e.1 e.2))
    else mset d e.1 e.2 w) d

/-- Library call `boost::floyd_warshall_all_pairs_shortest_paths(g, d, weight_map(w))` on a
directed graph with `n` vertices, with the defaults of the named-parameter
overload (`std::less<int>`, `closed_plus<int>`, `inf` the largest `int`, zero):
every cell is set to `inf`, the diagonal to zero, every edge is entered with
its weight, then the triple loop runs.  This is library code called by
graph.cpp, transcribed from the Boost header. -/
def floyd_warshall_all_pairs_shortest_paths (n : Nat) (edges : List (Nat × Nat))
    (w : Int) (d : DistanceMatrix) : DistanceMatrix :=
  let inf := INT_MAX
  let d1 := forVertices n (fun i d => forVertices n (fun j d => mset d i j inf) d) d
  let d2 := forVertices n (fun i d => mset d i i 0) d1
  let d3 := init_edges inf w edges d2
  floyd_warshall_dispatch n inf d3

/-- Member function `Graph::compute_distance_matrix`: when the pointer is null, an array of
`num_vertices` rows of `num_vertices` zeros is allocated and filled by the
Boost algorithm; otherwise nothing happens. -/
def compute_distance_matrix (g : Graph) : Graph :=
  match g.distance_matrix_ with
  | some _ => g
  | none =>
    let n := num_vertices g
    let d0 : DistanceMatrix := List.replicate n (List.replicate n 0)
    let d := floyd_warshall_all_pairs_shortest_paths n g.edges 1 d0
    { g with distance_matrix_ := some d }

/-- Member function `Graph::has_path`. -/
def has_path (from_ to_ : Path) (g : Graph) : Outcome Bool :=
  if !(has_node g from_) then (.error .assertion, g)
  else if !(has_node g to_) then (.error .assertion, g)
  else
    let g1 := compute_distance_matrix g
    match mapFind g1.mapping_ from_, mapFind g1.mapping_ to_, g1.distance_matrix_ with
    | some vfrom, some vto, some d =>
      match d[vfrom]? with
      | none => (.error .out_of_bounds, g1)
      | some row =>
        match row[vto]? with
        | none => (.error .out_of_bounds, g1)
        | some x => (.ok (x != INT_MAX), g1)
    | _, _, _ => (.error .out_of_bounds, g1)

/-! ## Call sequences -/

/-- A call of one of the three operations that the reachability claims interleave. -/
inductive Call where
  | add_node : Path → Hash → Call
  | add_edge : Path → Path → Call
  | has_path : Path → Path → Call
deriving DecidableEq, Repr

/-- State after a call, whatever its outcome. -/
def Call.after (c : Call) (g : Graph) : Graph :=
  match c with
  | .add_node k h => (Binmap.add_node k h g).2
  | .add_edge a b => (Binmap.add_edge a b g).2
  | .has_path a b => (Binmap.has_path a b g).2

/-- Whether the call ends with a result (its preconditions hold and no
storage is indexed out of bounds). -/
def Call.succeeds (c : Call) (g : Graph) : Bool :=
  match c with
  | .add_node k h => (Binmap.add_node k h g).1.toBool
  | .add_edge a b => (Binmap.add_edge a b g).1.toBool
  | .has_path a b => (Binmap.has_path a b g).1.toBool

/-- State after a sequence of calls made one after the other. -/
def runCalls (g : Graph) : List Call → Graph
  | [] => g
  | c :: cs => runCalls (c.after g) cs

/-! ## Specification-level notions -/

/-- The call is one of the two insertions. -/
def Call.isInsertion : Call → Bool
  | .add_node _ _ => true
  | .add_edge _ _ => true
  | .has_path _ _ => false

/-- Every call of the sequence ends with a result when made in its turn. -/
def validCalls (g : Graph) : List Call → Bool
  | [] => true
  | c :: cs => c.succeeds g && validCalls (c.after g) cs

/-- Number of `add_node` calls of the sequence that succeed when made in their turn. -/
def successfulAddNodes (g : Graph) : List Call → Nat
  | [] => 0
  | .add_node k h :: cs =>
    (if (Binmap.add_node k h g).1.toBool then 1 else 0)
      + successfulAddNodes (Call.after (.add_node k h) g) cs
  | c :: cs => successfulAddNodes (c.after g) cs

/-- Store invariant: the key index holds exactly the pairs (name of a vertex,
its handle), and both endpoints of every edge are vertex handles. -/
structure StoreInv (g : Graph) : Prop where
  index : ∀ k v, mapFind g.mapping_ k = some v ↔ (g.vertices[v]?).map Vertex.name = some k
  endpoints : ∀ e ∈ g.edges, e.1 < g.vertices.length ∧ e.2 < g.vertices.length

/-- The matrix has `n` rows of `n` cells each. -/
def Square (n : Nat) (d : DistanceMatrix) : Prop :=
  d.length = n ∧ ∀ row ∈ d, row.length = n

/-- Edge relation of the graph on vertex handles. -/
def edgeRel (g : Graph) (u v : Nat) : Prop := (u, v) ∈ g.edges

/-- There is a directed path of zero or more edges from the vertex of key
`a` to the vertex of key `b`. -/
def KeyPath (g : Graph) (a b : Path) : Prop :=
  ∃ u v, mapFind g.mapping_ a = some u ∧ mapFind g.mapping_ b = some v ∧
    Relation.ReflTransGen (edgeRel g) u v

/-- A walk `u → p₀ → ... → v` along `E` whose intermediate vertices `p` are
all below `k`; it has `p.length + 1` edges. -/
def Via (E : Nat → Nat → Prop) (k u v : Nat) (p : List Nat) : Prop :=
  List.Chain E u (p ++ [v]) ∧ ∀ x ∈ p, x < k

/-- Value of cell `(i, j)` after the round of the triple loop for `k`, from
the cells `f` before the round. -/
def roundCell (inf : Int) (f : Nat → Nat → Int) (k i j : Nat) : Int :=
  if f i k ≠ inf ∧ f k j ≠ inf then
    min_with_compare (f i j) (closed_plus inf (f i k) (f k j))
  else f i j

/-- The body of the outermost loop of `floyd_warshall_dispatch`: the round for `k`. -/
def fwRound (n : Nat) (inf : Int) (k : Nat) (d : DistanceMatrix) : DistanceMatrix :=
  forVertices n (fun i d =>
    if mget d i k ≠ inf then forVertices n (fun j d => relax inf k i j d) d
    else d) d

/-- The cells `f` hold, for all handles below `n`, the exact hop distance
along `E` over walks whose intermediate vertices are below `k`: zero on the
diagonal, the length of a shortest such walk where one exists, and
`INT_MAX` otherwise. -/
structure Exact (E : Nat → Nat → Prop) (n k : Nat) (f : Nat → Nat → Int) : Prop where
  diag : ∀ a, a < n → f a a = 0
  sound : ∀ a b, a < n → b < n → a ≠ b → f a b ≠ INT_MAX →
    ∃ p, Via E k a b p ∧ f a b = (p.length : Int) + 1
  best : ∀ a b p, a < n → b < n → Via E k a b p →
    f a b ≠ INT_MAX ∧ f a b ≤ (p.length : Int) + 1

/-- The matrix that `compute_distance_matrix` builds for the current vertices and edges. -/
def freshMatrix (g : Graph) : DistanceMatrix :=
  floyd_warshall_all_pairs_shortest_paths (num_vertices g) g.edges 1
    (List.replicate (num_vertices g) (List.replicate (num_vertices g) 0))

/-- The distance matrix is absent or is the one of the current vertices and edges. -/
def Current (g : Graph) : Prop :=
  g.distance_matrix_ = none ∨ g.distance_matrix_ = some (freshMatrix g)

/-- Member function `Graph::edge_begin(key)`: asserts `has_node(key)` and
returns the first position of the out-edge range of the vertex of the key.  An
`edge_iterator` is modelled as the pair of the vertex handle and a position
in `out_edges` of that vertex. -/
def edge_begin (input_file : Path) (g : Graph) : Outcome (Nat × Nat) :=
  if !(has_node g input_file) then (.error .assertion, g)
  else
    match mapFind g.mapping_ input_file with
    | some v => (.ok (v, 0), g)
    | none => (.error .out_of_bounds, g)

/-- Member function `Graph::edge_end(key)`: asserts `has_node(key)` and
returns the position past the last out-edge of the vertex of the key. -/
def edge_end (input_file : Path) (g : Graph) : Outcome (Nat × Nat) :=
  if !(has_node g input_file) then (.error .assertion, g)
  else
    match mapFind g.mapping_ input_file with
    | some v => (.ok (v, (out_edges g v).length), g)
    | none => (.error .out_of_bounds, g)

/-- Some `add_edge(a, b)` call of the sequence succeeded when made in its turn,
the sequence starting from the empty graph. -/
def EdgeAdded (calls : List Call) (a b : Path) : Prop :=
  ∃ before later, calls = before ++ Call.add_edge a b :: later ∧
    (add_edge a b (runCalls Graph.empty before)).1 = .ok ()

/-- There is a directed path with exactly `m` edges from handle `i` to handle
`j`: the empty path when `i = j`, or `i → p₀ → ... → j` along the edges. -/
def HopPath (g : Graph) (i j m : Nat) : Prop :=
  (i = j ∧ m = 0) ∨ ∃ p, List.Chain (edgeRel g) i (p ++ [j]) ∧ m = p.length + 1

/-- The matrix that `compute_distance_matrix` hands to the triple loop: all
cells `INT_MAX`, zero diagonal, weight 1 entered for every edge. -/
def matrixBeforeRounds (g : Graph) : DistanceMatrix :=
  init_edges INT_MAX 1 g.edges
    (forVertices (num_vertices g) (fun i d => mset d i i 0)
      (forVertices (num_vertices g)
        (fun i d => forVertices (num_vertices g) (fun j d => mset d i j INT_MAX) d)
        (List.replicate (num_vertices g) (List.replicate (num_vertices g) 0))))

/-- The matrix when the round for `k` of the triple loop starts, the rounds
for `0, ..., k - 1` being done. -/
def matrixBeforeRound (g : Graph) (k : Nat) : DistanceMatrix :=
  forVertices k (fun k d => fwRound (num_vertices g) INT_MAX k d) (matrixBeforeRounds g)

/-! ## Export -/

/-- One statement of the text written by `boost::write_graphviz` for a
directed graph; each statement is one line of the file. -/
inductive DotStatement where
  /-- the opening line of the graph -/
  | open_graph : DotStatement
  /-- the entry of the vertex with the given handle, with its label -/
  | vertex : Nat → Path → DotStatement
  /-- the mark connecting the entries of two handles -/
  | edge : Nat → Nat → DotStatement
  /-- the closing line of the graph -/
  | close_graph : DotStatement
deriving DecidableEq, Repr

/-- Library call `boost::edges(graph_)`: the out-edges of every vertex, vertex by vertex. -/
def graph_edges (g : Graph) : List (Nat × Nat) :=
  (List.range (num_vertices g)).flatMap (out_edges g)

/-- Library call `boost::write_graphviz(out, graph_, make_label_writer(names))`:
the opening line, one entry per vertex of `vertices(graph_)` labelled with its
name property, one mark per edge of `edges(graph_)`, the closing line. -/
def write_graphviz (g : Graph) : List DotStatement :=
  DotStatement.open_graph ::
    (g.vertices.enum.map (fun p => DotStatement.vertex p.1 p.2.name)
      ++ (graph_edges g).map (fun e => DotStatement.edge e.1 e.2)
      ++ [DotStatement.close_graph])

/-- The block of `Graph::add_node` under `#pragma omp critical(graph_)`
(graph.cpp:141-148): the vertex is added, indexed and given its name and hash. -/
def add_node_critical (input_file : Path) (input_hash : Hash) (g : Graph) : Graph :=
  let (v, g1) := add_vertex g
  let g2 := { g1 with mapping_ := mapAssign g1.mapping_ input_file v }
  let g3 := put_name g2 v input_file
  put_hash g3 v input_hash

/-- An atomic step of a caller of `add_node`.  The critical sections named
`graph_` exclude one another, so each runs as one step: `check` is the one
inside `has_node` (graph.cpp:32-33) together with the `assert` on its result,
`insert` is the block of `add_node`. -/
inductive Step where
  | check : Path → Step
  | insert : Path → Hash → Step
deriving DecidableEq, Repr

/-- Effect of one step: a `check` fails its assertion when the key is indexed
and changes nothing otherwise, an `insert` runs the critical block. -/
def Step.run : Step → Graph → Except Failure Graph
  | .check k, g => if has_node g k then .error .assertion else .ok g
  | .insert k h, g => .ok (add_node_critical k h g)

/-- The steps run one after the other, in the order the critical sections
were entered; a failed assertion ends the run. -/
def runSteps (g : Graph) : List Step → Except Failure Graph
  | [] => .ok g
  | s :: ss =>
    match s.run g with
    | .ok g1 => runSteps g1 ss
    | .error f => .error f

/-- The steps of the calls `add_node(key, hash)` for the given pairs. -/
def stepsOf (nodes : List (Path × Hash)) : List Step :=
  nodes.flatMap (fun p => [Step.check p.1, Step.insert p.1 p.2])

/-- Every `insert` of the schedule comes after a `check` of its key; `seen`
holds the keys checked so far. -/
def checksPrecede : List Step → List Path → Bool
  | [], _ => true
  | .check k :: ss, seen => checksPrecede ss (k :: seen)
  | .insert k _ :: ss, seen => decide (k ∈ seen) && checksPrecede ss seen

/-- The schedule is an interleaving of the calls `add_node(key, hash)` for the
given pairs, made by any number of callers: it holds the steps of all the
calls, each once, and within every call the check comes before the insert.
The order in which one caller makes its calls restricts the schedules
further, so every execution is among these. -/
def Interleaving (nodes : List (Path × Hash)) (schedule : List Step) : Prop :=
  schedule.Perm (stepsOf nodes) ∧ checksPrecede schedule [] = true

/-- Key of a `check` step. -/
def Step.checked : Step → Option Path
  | .check k => some k
  | .insert _ _ => none

/-- Key and hash of an `insert` step. -/
def Step.inserted : Step → Option (Path × Hash)
  | .check _ => none
  | .insert k h => some (k, h)

/-! # Verification -/

/-! ## The store: basic facts -/

theorem modify_append_singleton {α : Type} (f : α → α) (l : List α) (x : α) :
    (l ++ [x]).modify f l.length = l ++ [f x] := by
  induction l with
  | nil => rfl
  | cons a l ih => simp [ih]

theorem mapFind_append_single (m : List (Path × Nat)) (k k2 : Path) (v : Nat) :
    mapFind (m ++ [(k, v)]) k2 =
      match mapFind m k2 with
      | some w => some w
      | none => if k2 = k then some v else none := by
  unfold mapFind
  rw [List.lookup_append]
  cases h : List.lookup k2 m with
  | some w => simp
  | none =>
    by_cases hk : k2 = k
    · subst hk; simp [List.lookup]
    · have hb : (k2 == k) = false := by simpa using hk
      simp [List.lookup, hk, hb]

theorem add_node_fresh (k : Path) (h : Hash) (g : Graph) (hk : has_node g k = false) :
    add_node k h g =
      (.ok (), { g with vertices := g.vertices ++ [⟨k, h⟩],
                        mapping_ := g.mapping_ ++ [(k, g.vertices.length)] }) := by
  have hf : (mapFind g.mapping_ k).isSome = false := hk
  simp [add_node, hk, add_vertex, put_name, put_hash, mapAssign, hf,
    modify_append_singleton, List.modify_modify_eq]

theorem add_node_existing (k : Path) (h : Hash) (g : Graph) (hk : has_node g k = true) :
    add_node k h g = (.error .assertion, g) := by
  simp [add_node, hk]

theorem add_edge_found (a b : Path) (g : Graph) (u v : Nat)
    (ha : mapFind g.mapping_ a = some u) (hb : mapFind g.mapping_ b = some v) :
    add_edge a b g = (.ok (), { g with edges := g.edges ++ [(u, v)] }) := by
  simp [add_edge, has_node, ha, hb, mapIndex]

theorem add_edge_missing (a b : Path) (g : Graph)
    (h : has_node g a = false ∨ has_node g b = false) :
    add_edge a b g = (.error .assertion, g) := by
  unfold add_edge
  rcases h with h | h
  · simp [h]
  · cases ha : has_node g a <;> simp [h]

theorem compute_distance_matrix_store (g : Graph) :
    (compute_distance_matrix g).vertices = g.vertices ∧
    (compute_distance_matrix g).edges = g.edges ∧
    (compute_distance_matrix g).mapping_ = g.mapping_ := by
  unfold compute_distance_matrix
  cases g.distance_matrix_ <;> simp

theorem has_path_state (a b : Path) (g : Graph) :
    (has_path a b g).2 = g ∨ (has_path a b g).2 = compute_distance_matrix g := by
  unfold has_path
  by_cases ha : has_node g a = true
  · by_cases hb : has_node g b = true
    · right
      simp only [ha, hb, Bool.not_true, Bool.false_eq_true, if_false]
      split
      · split
        · rfl
        · split <;> rfl
      · rfl
    · left; simp [ha, hb]
  · left; simp [ha]

theorem has_path_store (a b : Path) (g : Graph) :
    (has_path a b g).2.vertices = g.vertices ∧
    (has_path a b g).2.edges = g.edges ∧
    (has_path a b g).2.mapping_ = g.mapping_ := by
  rcases has_path_state a b g with h | h
  · rw [h]; exact ⟨rfl, rfl, rfl⟩
  · rw [h]; exact compute_distance_matrix_store g

/-! ## The store invariant -/

theorem StoreInv.of_store_eq {g g2 : Graph} (hinv : StoreInv g)
    (hv : g2.vertices = g.vertices) (he : g2.edges = g.edges)
    (hm : g2.mapping_ = g.mapping_) : StoreInv g2 := by
  constructor
  · rw [hv, hm]; exact hinv.index
  · rw [hv, he]; exact hinv.endpoints

theorem StoreInv.init : StoreInv Graph.empty := by
  constructor
  · intro k v; simp [Graph.empty, mapFind]
  · intro e he; simp [Graph.empty] at he

theorem StoreInv.find_lt {g : Graph} (hinv : StoreInv g) {k : Path} {v : Nat}
    (h : mapFind g.mapping_ k = some v) : v < g.vertices.length := by
  have h1 := (hinv.index k v).1 h
  by_contra hlt
  rw [List.getElem?_eq_none (Nat.le_of_not_lt hlt)] at h1
  simp at h1

theorem StoreInv.add_node {g : Graph} (hinv : StoreInv g) (k : Path) (h : Hash) :
    StoreInv (add_node k h g).2 := by
  cases hk : has_node g k with
  | true => rw [add_node_existing k h g hk]; exact hinv
  | false =>
    rw [add_node_fresh k h g hk]
    have hnone : mapFind g.mapping_ k = none := by
      simpa [has_node] using hk
    constructor
    · intro k2 v
      show mapFind (g.mapping_ ++ [(k, g.vertices.length)]) k2 = some v ↔
        ((g.vertices ++ [⟨k, h⟩])[v]?).map Vertex.name = some k2
      rw [mapFind_append_single]
      rcases Nat.lt_trichotomy v g.vertices.length with hlt | heq | hgt
      · rw [List.getElem?_append_left hlt, ← hinv.index k2 v]
        cases hf : mapFind g.mapping_ k2 with
        | some w => simp
        | none =>
          by_cases hkk : k2 = k
          · simp [hkk]; omega
          · simp [hkk]
      · subst heq
        rw [List.getElem?_append_right (Nat.le_refl _)]
        cases hf : mapFind g.mapping_ k2 with
        | some w =>
          have := hinv.find_lt hf
          simp
          constructor
          · intro hw; omega
          · intro hkk; subst hkk; rw [hnone] at hf; cases hf
        | none =>
          by_cases hkk : k2 = k
          · simp [hkk]
          · simp [hkk]; exact fun e => hkk e.symm
      · rw [List.getElem?_eq_none (by simp; omega)]
        cases hf : mapFind g.mapping_ k2 with
        | some w =>
          have := hinv.find_lt hf
          simp; omega
        | none =>
          by_cases hkk : k2 = k
          · simp [hkk]; omega
          · simp [hkk]
    · intro e he
      have := hinv.endpoints e he
      simp only [List.length_append, List.length_singleton]
      omega

theorem StoreInv.add_edge {g : Graph} (hinv : StoreInv g) (a b : Path) :
    StoreInv (add_edge a b g).2 := by
  cases ha : mapFind g.mapping_ a with
  | none =>
    rw [add_edge_missing a b g (Or.inl (by simp [has_node, ha]))]; exact hinv
  | some u =>
    cases hb : mapFind g.mapping_ b with
    | none =>
      rw [add_edge_missing a b g (Or.inr (by simp [has_node, hb]))]; exact hinv
    | some v =>
      rw [add_edge_found a b g u v ha hb]
      constructor
      · exact hinv.index
      · intro e he
        simp only [List.mem_append, List.mem_singleton] at he
        rcases he with he | he
        · exact hinv.endpoints e he
        · subst he; exact ⟨hinv.find_lt ha, hinv.find_lt hb⟩

theorem StoreInv.after {g : Graph} (hinv : StoreInv g) (c : Call) : StoreInv (c.after g) := by
  cases c with
  | add_node k h => exact hinv.add_node k h
  | add_edge a b => exact hinv.add_edge a b
  | has_path a b =>
    obtain ⟨h1, h2, h3⟩ := has_path_store a b g
    exact hinv.of_store_eq h1 h2 h3

theorem StoreInv.runCalls {g : Graph} (hinv : StoreInv g) (cs : List Call) :
    StoreInv (runCalls g cs) := by
  induction cs generalizing g with
  | nil => exact hinv
  | cons c cs ih => exact ih (hinv.after c)

theorem runCalls_append (g : Graph) (cs ds : List Call) :
    runCalls g (cs ++ ds) = runCalls (runCalls g cs) ds := by
  induction cs generalizing g with
  | nil => rfl
  | cons c cs ih => exact ih (c.after g)

/-! ## Facts that later calls keep -/

theorem mapFind_after {g : Graph} (c : Call) {k : Path} {v : Nat}
    (h : mapFind g.mapping_ k = some v) : mapFind (c.after g).mapping_ k = some v := by
  cases c with
  | add_node k2 h2 =>
    cases hk : has_node g k2 with
    | true => simp only [Call.after]; rw [add_node_existing k2 h2 g hk]; exact h
    | false =>
      simp only [Call.after]; rw [add_node_fresh k2 h2 g hk]
      show mapFind (g.mapping_ ++ [(k2, g.vertices.length)]) k = some v
      rw [mapFind_append_single, h]
  | add_edge a b =>
    simp only [Call.after]
    cases ha : mapFind g.mapping_ a with
    | none => rw [add_edge_missing a b g (Or.inl (by simp [has_node, ha]))]; exact h
    | some u =>
      cases hb : mapFind g.mapping_ b with
      | none => rw [add_edge_missing a b g (Or.inr (by simp [has_node, hb]))]; exact h
      | some w => rw [add_edge_found a b g u w ha hb]; exact h
  | has_path a b =>
    simp only [Call.after]; rw [(has_path_store a b g).2.2]; exact h

theorem vertex_after {g : Graph} (c : Call) {v : Nat} {x : Vertex}
    (h : g.vertices[v]? = some x) : (c.after g).vertices[v]? = some x := by
  cases c with
  | add_node k2 h2 =>
    cases hk : has_node g k2 with
    | true => simp only [Call.after]; rw [add_node_existing k2 h2 g hk]; exact h
    | false =>
      simp only [Call.after]; rw [add_node_fresh k2 h2 g hk]
      show (g.vertices ++ [⟨k2, h2⟩])[v]? = some x
      have hlt : v < g.vertices.length := by
        by_contra hn
        rw [List.getElem?_eq_none (Nat.le_of_not_lt hn)] at h
        cases h
      rw [List.getElem?_append_left hlt]; exact h
  | add_edge a b =>
    simp only [Call.after]
    cases ha : mapFind g.mapping_ a with
    | none => rw [add_edge_missing a b g (Or.inl (by simp [has_node, ha]))]; exact h
    | some u =>
      cases hb : mapFind g.mapping_ b with
      | none => rw [add_edge_missing a b g (Or.inr (by simp [has_node, hb]))]; exact h
      | some w => rw [add_edge_found a b g u w ha hb]; exact h
  | has_path a b =>
    simp only [Call.after]; rw [(has_path_store a b g).1]; exact h

theorem edge_after {g : Graph} (c : Call) {e : Nat × Nat}
    (h : e ∈ g.edges) : e ∈ (c.after g).edges := by
  cases c with
  | add_node k2 h2 =>
    cases hk : has_node g k2 with
    | true => simp only [Call.after]; rw [add_node_existing k2 h2 g hk]; exact h
    | false => simp only [Call.after]; rw [add_node_fresh k2 h2 g hk]; exact h
  | add_edge a b =>
    simp only [Call.after]
    cases ha : mapFind g.mapping_ a with
    | none => rw [add_edge_missing a b g (Or.inl (by simp [has_node, ha]))]; exact h
    | some u =>
      cases hb : mapFind g.mapping_ b with
      | none => rw [add_edge_missing a b g (Or.inr (by simp [has_node, hb]))]; exact h
      | some w =>
        rw [add_edge_found a b g u w ha hb]
        exact List.mem_append_left _ h
  | has_path a b =>
    simp only [Call.after]; rw [(has_path_store a b g).2.1]; exact h

theorem mapFind_runCalls {g : Graph} (cs : List Call) {k : Path} {v : Nat}
    (h : mapFind g.mapping_ k = some v) : mapFind (runCalls g cs).mapping_ k = some v := by
  induction cs generalizing g with
  | nil => exact h
  | cons c cs ih => exact ih (mapFind_after c h)

theorem vertex_runCalls {g : Graph} (cs : List Call) {v : Nat} {x : Vertex}
    (h : g.vertices[v]? = some x) : (runCalls g cs).vertices[v]? = some x := by
  induction cs generalizing g with
  | nil => exact h
  | cons c cs ih => exact ih (vertex_after c h)

theorem edge_runCalls {g : Graph} (cs : List Call) {e : Nat × Nat}
    (h : e ∈ g.edges) : e ∈ (runCalls g cs).edges := by
  induction cs generalizing g with
  | nil => exact h
  | cons c cs ih => exact ih (edge_after c h)

theorem hash_eq_ok_iff (k : Path) (h : Hash) (g : Graph) :
    (hash k g).1 = .ok h ↔
      ∃ v x, mapFind g.mapping_ k = some v ∧ g.vertices[v]? = some x ∧ x.hash = h := by
  unfold hash
  cases hf : mapFind g.mapping_ k with
  | none => simp
  | some v =>
    simp only [hash_vd]
    cases hx : g.vertices[v]? with
    | none => simp [hx]
    | some x => simp [hx]

theorem key_eq_ok_iff (g : Graph) (v : Nat) (k : Path) :
    key g v = .ok k ↔ (g.vertices[v]?).map Vertex.name = some k := by
  unfold key
  cases hx : g.vertices[v]? with
  | none => simp
  | some x => simp

/-! ## Claims about the store -/

theorem add_node_fresh_lookup (g : Graph) (k : Path) (h : Hash)
    (hk : has_node g k = false) :
    (add_node k h g).1 = .ok () ∧
    has_node (add_node k h g).2 k = true ∧
    (hash k (add_node k h g).2).1 = .ok h := by
  have hnone : mapFind g.mapping_ k = none := by simpa [has_node] using hk
  have hfind : mapFind (g.mapping_ ++ [(k, g.vertices.length)]) k = some g.vertices.length := by
    rw [mapFind_append_single, hnone]; simp
  rw [add_node_fresh k h g hk]
  refine ⟨rfl, ?_, ?_⟩
  · show (mapFind (g.mapping_ ++ [(k, g.vertices.length)]) k).isSome = true
    rw [hfind]; rfl
  · rw [hash_eq_ok_iff]
    refine ⟨g.vertices.length, ⟨k, h⟩, hfind, ?_, rfl⟩
    show (g.vertices ++ [⟨k, h⟩])[g.vertices.length]? = some ⟨k, h⟩
    rw [List.getElem?_append_right (Nat.le_refl _)]; simp

/-- C4: for every graph and every key that is not yet present, after
`add_node(key, hash)` the call succeeds, `has_node(key)` is true and
`hash(key)` returns exactly the inserted hash. -/
theorem add_node_then_has_node_and_hash (g : Graph) (k : Path) (h : Hash)
    (hk : has_node g k = false) :
    (add_node k h g).1 = .ok () ∧
    has_node (add_node k h g).2 k = true ∧
    (hash k (add_node k h g).2).1 = .ok h :=
  add_node_fresh_lookup g k h hk

theorem add_node_then_has_node_and_hash_witness :
    has_node (runCalls Graph.empty [.add_node "/bin/ls" "h0"]) "/lib/libc.so" = false ∧
    ((add_node "/lib/libc.so" "h1" (runCalls Graph.empty [.add_node "/bin/ls" "h0"])).1 = .ok () ∧
     has_node (add_node "/lib/libc.so" "h1"
        (runCalls Graph.empty [.add_node "/bin/ls" "h0"])).2 "/lib/libc.so" = true ∧
     (hash "/lib/libc.so" (add_node "/lib/libc.so" "h1"
        (runCalls Graph.empty [.add_node "/bin/ls" "h0"])).2).1 = .ok "h1") :=
  ⟨by decide,
   add_node_then_has_node_and_hash (runCalls Graph.empty [.add_node "/bin/ls" "h0"])
     "/lib/libc.so" "h1" (by decide)⟩

/-- C6: `add_node` with a key that already names a vertex fails its assertion
before any mutation: the state after the call is the state before it, so the
vertex count, the key index, the hash of that key and the edges are the same. -/
theorem add_node_duplicate_rejected (g : Graph) (k : Path) (h : Hash)
    (hk : has_node g k = true) :
    (add_node k h g).1 = .error .assertion ∧
    (add_node k h g).2 = g ∧
    size (add_node k h g).2 = size g ∧
    (add_node k h g).2.mapping_ = g.mapping_ ∧
    (hash k (add_node k h g).2).1 = (hash k g).1 ∧
    (add_node k h g).2.edges = g.edges := by
  rw [add_node_existing k h g hk]
  exact ⟨rfl, rfl, rfl, rfl, rfl, rfl⟩

theorem add_node_duplicate_rejected_witness :
    has_node (runCalls Graph.empty [.add_node "a" "h0", .add_node "b" "h1", .add_edge "a" "b"]) "a"
      = true ∧
    (hash "a" (add_node "a" "other"
      (runCalls Graph.empty [.add_node "a" "h0", .add_node "b" "h1", .add_edge "a" "b"])).2).1
      = .ok "h0" ∧
    (add_node "a" "other"
      (runCalls Graph.empty [.add_node "a" "h0", .add_node "b" "h1", .add_edge "a" "b"])).1
      = .error .assertion :=
  ⟨by decide,
   (add_node_duplicate_rejected
      (runCalls Graph.empty [.add_node "a" "h0", .add_node "b" "h1", .add_edge "a" "b"])
      "a" "other" (by decide)).2.2.2.2.1.trans (by decide),
   (add_node_duplicate_rejected
      (runCalls Graph.empty [.add_node "a" "h0", .add_node "b" "h1", .add_edge "a" "b"])
      "a" "other" (by decide)).1⟩

/-- C7: `add_edge(from, to)` succeeds exactly when both keys name existing
vertices; otherwise the assertion fails and the state is unchanged: same
edges, same key index (no entry is created for the missing key), same
vertex count. -/
theorem add_edge_succeeds_iff_both_exist (g : Graph) (a b : Path) :
    ((add_edge a b g).1 = .ok () ↔ (has_node g a = true ∧ has_node g b = true)) ∧
    (¬ (has_node g a = true ∧ has_node g b = true) →
      (add_edge a b g).1 = .error .assertion ∧
      (add_edge a b g).2 = g ∧
      (add_edge a b g).2.edges = g.edges ∧
      (add_edge a b g).2.mapping_ = g.mapping_ ∧
      size (add_edge a b g).2 = size g) := by
  cases ha : mapFind g.mapping_ a with
  | none =>
    have hna : has_node g a = false := by simp [has_node, ha]
    rw [add_edge_missing a b g (Or.inl hna)]
    simp [hna]
  | some u =>
    have hna : has_node g a = true := by simp [has_node, ha]
    cases hb : mapFind g.mapping_ b with
    | none =>
      have hnb : has_node g b = false := by simp [has_node, hb]
      rw [add_edge_missing a b g (Or.inr hnb)]
      simp [hnb]
    | some v =>
      have hnb : has_node g b = true := by simp [has_node, hb]
      rw [add_edge_found a b g u v ha hb]
      simp [hna, hnb]

theorem add_edge_succeeds_iff_both_exist_witness :
    (add_edge "a" "zz" (runCalls Graph.empty [.add_node "a" "h0"])).1 = .error .assertion ∧
    (add_edge "a" "zz" (runCalls Graph.empty [.add_node "a" "h0"])).2.mapping_ = [("a", 0)] :=
  ⟨((add_edge_succeeds_iff_both_exist (runCalls Graph.empty [.add_node "a" "h0"]) "a" "zz").2
      (by decide)).1,
   ((add_edge_succeeds_iff_both_exist (runCalls Graph.empty [.add_node "a" "h0"]) "a" "zz").2
      (by decide)).2.2.2.1.trans (by decide)⟩

theorem size_add_node (k : Path) (h : Hash) (g : Graph) :
    size (add_node k h g).2 = size g + (if has_node g k then 0 else 1) := by
  cases hk : has_node g k with
  | true => rw [add_node_existing k h g hk]; simp
  | false => rw [add_node_fresh k h g hk]; simp [size, num_vertices]

theorem size_add_edge (a b : Path) (g : Graph) : size (add_edge a b g).2 = size g := by
  cases ha : mapFind g.mapping_ a with
  | none => rw [add_edge_missing a b g (Or.inl (by simp [has_node, ha]))]
  | some u =>
    cases hb : mapFind g.mapping_ b with
    | none => rw [add_edge_missing a b g (Or.inr (by simp [has_node, hb]))]
    | some v => rw [add_edge_found a b g u v ha hb]; rfl

theorem size_has_path (a b : Path) (g : Graph) : size (has_path a b g).2 = size g := by
  simp [size, num_vertices, (has_path_store a b g).1]

/-- C8: `hash(key)` ends with `std::out_of_range` carrying the key exactly
when `has_node(key)` is false, it never changes the state, and in every state
reached from the empty graph the hash of a key is the one given to the
`add_node` call that inserted the key. -/
theorem hash_not_found_iff_absent :
    (∀ (g : Graph) (k : Path),
      ((hash k g).1 = .error (.out_of_range k) ↔ has_node g k = false) ∧
      (hash k g).2 = g) ∧
    (∀ (before later : List Call) (k : Path) (h : Hash),
      (add_node k h (runCalls Graph.empty before)).1 = .ok () →
      (hash k (runCalls Graph.empty (before ++ Call.add_node k h :: later))).1 = .ok h) := by
  constructor
  · intro g k
    unfold hash has_node
    cases hf : mapFind g.mapping_ k with
    | none => simp
    | some v =>
      simp only [hash_vd]
      cases hx : g.vertices[v]? <;> simp
  · intro before later k h hok
    have hk : has_node (runCalls Graph.empty before) k = false := by
      cases hk : has_node (runCalls Graph.empty before) k with
      | false => rfl
      | true => rw [add_node_existing k h _ hk] at hok; cases hok
    obtain ⟨v, x, hf, hx, hh⟩ := (hash_eq_ok_iff k h _).1
      ((add_node_fresh_lookup (runCalls Graph.empty before) k h hk).2.2)
    rw [runCalls_append]
    exact (hash_eq_ok_iff k h _).2 ⟨v, x, mapFind_runCalls later hf, vertex_runCalls later hx, hh⟩

theorem hash_not_found_iff_absent_witness :
    (hash "b" (runCalls Graph.empty
      ([Call.add_node "a" "h0"] ++ Call.add_node "b" "h1" ::
        [Call.add_node "b" "h2", Call.add_edge "a" "b", Call.has_path "a" "b"]))).1 = .ok "h1" :=
  hash_not_found_iff_absent.2 [Call.add_node "a" "h0"]
    [Call.add_node "b" "h2", Call.add_edge "a" "b", Call.has_path "a" "b"] "b" "h1" (by decide)

theorem size_runCalls (g : Graph) (cs : List Call) :
    size (runCalls g cs) = size g + successfulAddNodes g cs := by
  induction cs generalizing g with
  | nil => rfl
  | cons c cs ih =>
    cases c with
    | add_node k h =>
      simp only [runCalls, successfulAddNodes, Call.after]
      rw [ih, size_add_node]
      cases hk : has_node g k with
      | true => simp [add_node_existing k h g hk, Except.toBool]
      | false => simp [add_node_fresh k h g hk, Except.toBool]; omega
    | add_edge a b =>
      simp only [runCalls, successfulAddNodes, Call.after]
      rw [ih, size_add_edge]
    | has_path a b =>
      simp only [runCalls, successfulAddNodes, Call.after]
      rw [ih, size_has_path]

/-- C9: starting from the empty graph, whose size is 0, after any sequence of
`add_node`, `add_edge` and `has_path` calls `size()` is the number of
`add_node` calls that succeeded; a rejected `add_node`, an `add_edge` and a
`has_path` leave `size()` as it was. -/
theorem size_counts_successful_add_node (cs : List Call) :
    size Graph.empty = 0 ∧
    size (runCalls Graph.empty cs) = successfulAddNodes Graph.empty cs ∧
    (∀ (g : Graph) (k : Path) (h : Hash),
      (add_node k h g).1 ≠ .ok () → size (add_node k h g).2 = size g) ∧
    (∀ (g : Graph) (a b : Path), size (add_edge a b g).2 = size g) ∧
    (∀ (g : Graph) (a b : Path), size (has_path a b g).2 = size g) := by
  refine ⟨rfl, ?_, ?_, ?_, ?_⟩
  · rw [size_runCalls]; simp [size, num_vertices, Graph.empty]
  · intro g k h hne
    cases hk : has_node g k with
    | true => rw [add_node_existing k h g hk]
    | false => rw [add_node_fresh k h g hk] at hne; exact absurd rfl hne
  · intro g a b; exact size_add_edge a b g
  · intro g a b; exact size_has_path a b g

/-- C10: in every state reached from the empty graph by `add_node` and
`add_edge` calls (and also when `has_path` calls are made in between) the key index and the vertex set are in bijection: distinct
keys have distinct handles, every indexed handle is below `size()`, every
handle below `size()` is the image of exactly one key, and the key of the
handle of an indexed key is that key. -/
theorem key_index_bijection (cs : List Call) :
    (∀ k1 k2 v, mapFind (runCalls Graph.empty cs).mapping_ k1 = some v →
      mapFind (runCalls Graph.empty cs).mapping_ k2 = some v → k1 = k2) ∧
    (∀ k v, mapFind (runCalls Graph.empty cs).mapping_ k = some v →
      v < size (runCalls Graph.empty cs)) ∧
    (∀ v, v < size (runCalls Graph.empty cs) →
      ∃! k, mapFind (runCalls Graph.empty cs).mapping_ k = some v) ∧
    (∀ k v, mapFind (runCalls Graph.empty cs).mapping_ k = some v →
      key (runCalls Graph.empty cs) v = .ok k) := by
  have hinv : StoreInv (runCalls Graph.empty cs) := StoreInv.init.runCalls cs
  refine ⟨?_, ?_, ?_, ?_⟩
  · intro k1 k2 v h1 h2
    have e1 := (hinv.index k1 v).1 h1
    have e2 := (hinv.index k2 v).1 h2
    rw [e1] at e2
    exact Option.some.inj e2
  · intro k v h
    exact hinv.find_lt h
  · intro v hv
    have hv2 : v < (runCalls Graph.empty cs).vertices.length := hv
    refine ⟨((runCalls Graph.empty cs).vertices[v]).name, ?_, ?_⟩
    · apply (hinv.index _ v).2
      rw [List.getElem?_eq_getElem hv2]; rfl
    · intro k hk
      have e := (hinv.index k v).1 hk
      rw [List.getElem?_eq_getElem hv2] at e
      exact (Option.some.inj e).symm
  · intro k v h
    exact (key_eq_ok_iff _ v k).2 ((hinv.index k v).1 h)

theorem insertTargets_spec (g : Graph) (es : List (Nat × Nat)) (s : Finset Path)
    (hlt : ∀ e ∈ es, e.2 < g.vertices.length) :
    ∃ r, insertTargets g es s = .ok r ∧
      ∀ k, k ∈ r ↔ k ∈ s ∨ ∃ e ∈ es, key g e.2 = .ok k := by
  induction es generalizing s with
  | nil => exact ⟨s, rfl, by simp⟩
  | cons e es ih =>
    have he : e.2 < g.vertices.length := hlt e (List.mem_cons_self _ _)
    have hkey : key g e.2 = .ok (g.vertices[e.2]).name := by
      unfold key; rw [List.getElem?_eq_getElem he]
    obtain ⟨r, hr, hmem⟩ := ih (insert (g.vertices[e.2]).name s)
      (fun x hx => hlt x (List.mem_cons_of_mem _ hx))
    refine ⟨r, ?_, ?_⟩
    · simp only [insertTargets, hkey]; exact hr
    · intro k
      rw [hmem k, Finset.mem_insert]
      constructor
      · rintro ((h | h) | ⟨x, hx, hk⟩)
        · exact Or.inr ⟨e, List.mem_cons_self _ _, by rw [hkey, h]⟩
        · exact Or.inl h
        · exact Or.inr ⟨x, List.mem_cons_of_mem _ hx, hk⟩
      · rintro (h | ⟨x, hx, hk⟩)
        · exact Or.inl (Or.inr h)
        · rcases List.mem_cons.1 hx with rfl | hx
          · rw [hkey] at hk
            exact Or.inl (Or.inl (Except.ok.inj hk).symm)
          · exact Or.inr ⟨x, hx, hk⟩

theorem insertSources_spec (g : Graph) (es : List (Nat × Nat)) (s : Finset Path)
    (hlt : ∀ e ∈ es, e.1 < g.vertices.length) :
    ∃ r, insertSources g es s = .ok r ∧
      ∀ k, k ∈ r ↔ k ∈ s ∨ ∃ e ∈ es, key g e.1 = .ok k := by
  induction es generalizing s with
  | nil => exact ⟨s, rfl, by simp⟩
  | cons e es ih =>
    have he : e.1 < g.vertices.length := hlt e (List.mem_cons_self _ _)
    have hkey : key g e.1 = .ok (g.vertices[e.1]).name := by
      unfold key; rw [List.getElem?_eq_getElem he]
    obtain ⟨r, hr, hmem⟩ := ih (insert (g.vertices[e.1]).name s)
      (fun x hx => hlt x (List.mem_cons_of_mem _ hx))
    refine ⟨r, ?_, ?_⟩
    · simp only [insertSources, hkey]; exact hr
    · intro k
      rw [hmem k, Finset.mem_insert]
      constructor
      · rintro ((h | h) | ⟨x, hx, hk⟩)
        · exact Or.inr ⟨e, List.mem_cons_self _ _, by rw [hkey, h]⟩
        · exact Or.inl h
        · exact Or.inr ⟨x, List.mem_cons_of_mem _ hx, hk⟩
      · rintro (h | ⟨x, hx, hk⟩)
        · exact Or.inl (Or.inr h)
        · rcases List.mem_cons.1 hx with rfl | hx
          · rw [hkey] at hk
            exact Or.inl (Or.inl (Except.ok.inj hk).symm)
          · exact Or.inr ⟨x, hx, hk⟩

theorem successors_spec {g : Graph} (hinv : StoreInv g) (s : Finset Path) (a : Path) (u : Nat)
    (ha : mapFind g.mapping_ a = some u) :
    (successors s a g).2 = g ∧
    ∃ r, (successors s a g).1 = .ok r ∧
      ∀ k, k ∈ r ↔ k ∈ s ∨ ∃ v, (u, v) ∈ g.edges ∧ key g v = .ok k := by
  have hn : has_node g a = true := by simp [has_node, ha]
  obtain ⟨r, hr, hmem⟩ := insertTargets_spec g (out_edges g u) s
    (fun e he => (hinv.endpoints e (List.mem_of_mem_filter he)).2)
  simp only [successors, hn, ha, Bool.not_true, Bool.false_eq_true, if_false]
  refine ⟨trivial, r, hr, ?_⟩
  intro k
  rw [hmem k]
  apply or_congr_right
  constructor
  · rintro ⟨e, he, hk⟩
    have h1 : e.1 = u := by simpa [out_edges] using (List.mem_filter.1 he).2
    refine ⟨e.2, ?_, hk⟩
    rw [← h1]; exact List.mem_of_mem_filter he
  · rintro ⟨v, hv, hk⟩
    exact ⟨(u, v), by simp [out_edges, hv], hk⟩

theorem predecessors_spec {g : Graph} (hinv : StoreInv g) (s : Finset Path) (b : Path) (v : Nat)
    (hb : mapFind g.mapping_ b = some v) :
    (predecessors s b g).2 = g ∧
    ∃ r, (predecessors s b g).1 = .ok r ∧
      ∀ k, k ∈ r ↔ k ∈ s ∨ ∃ u, (u, v) ∈ g.edges ∧ key g u = .ok k := by
  obtain ⟨r, hr, hmem⟩ := insertSources_spec g (in_edges g v) s
    (fun e he => (hinv.endpoints e (List.mem_of_mem_filter he)).1)
  simp only [predecessors, hb]
  refine ⟨trivial, r, hr, ?_⟩
  intro k
  rw [hmem k]
  apply or_congr_right
  constructor
  · rintro ⟨e, he, hk⟩
    have h1 : e.2 = v := by simpa [in_edges] using (List.mem_filter.1 he).2
    refine ⟨e.1, ?_, hk⟩
    rw [← h1]; exact List.mem_of_mem_filter he
  · rintro ⟨u, hu, hk⟩
    exact ⟨(u, v), by simp [in_edges, hu], hk⟩

/-- C5: when `add_edge(a, b)` is called in a state reached from the empty
graph in which `a` and `b` both exist, then after any further calls
`successors(a)` collected into an empty set contains `b` and
`predecessors(b)` collected into an empty set contains `a`. -/
theorem added_edge_in_successors_and_predecessors (before later : List Call) (a b : Path)
    (ha : has_node (runCalls Graph.empty before) a = true)
    (hb : has_node (runCalls Graph.empty before) b = true) :
    (add_edge a b (runCalls Graph.empty before)).1 = .ok () ∧
    (∃ s, (successors ∅ a
        (runCalls (add_edge a b (runCalls Graph.empty before)).2 later)).1 = .ok s ∧ b ∈ s) ∧
    (∃ p, (predecessors ∅ b
        (runCalls (add_edge a b (runCalls Graph.empty before)).2 later)).1 = .ok p ∧ a ∈ p) := by
  obtain ⟨u, hu⟩ := Option.isSome_iff_exists.1 ha
  obtain ⟨v, hv⟩ := Option.isSome_iff_exists.1 hb
  have hinv0 : StoreInv (runCalls Graph.empty before) := StoreInv.init.runCalls before
  have hka := (hinv0.index a u).1 hu
  have hkb := (hinv0.index b v).1 hv
  rw [add_edge_found a b _ u v hu hv]
  refine ⟨rfl, ?_⟩
  generalize hg1 : ({ runCalls Graph.empty before with
    edges := (runCalls Graph.empty before).edges ++ [(u, v)] } : Graph) = g1
  have hinv1 : StoreInv g1 := by
    have := hinv0.add_edge a b
    rw [add_edge_found a b _ u v hu hv, hg1] at this
    exact this
  have hu1 : mapFind g1.mapping_ a = some u := by rw [← hg1]; exact hu
  have hv1 : mapFind g1.mapping_ b = some v := by rw [← hg1]; exact hv
  have he1 : (u, v) ∈ g1.edges := by rw [← hg1]; simp
  have hinv2 : StoreInv (runCalls g1 later) := hinv1.runCalls later
  have hu2 := mapFind_runCalls later hu1
  have hv2 := mapFind_runCalls later hv1
  have he2 := edge_runCalls later he1
  have hka2 := (key_eq_ok_iff _ u a).2 ((hinv2.index a u).1 hu2)
  have hkb2 := (key_eq_ok_iff _ v b).2 ((hinv2.index b v).1 hv2)
  constructor
  · obtain ⟨_, r, hr, hmem⟩ := successors_spec hinv2 ∅ a u hu2
    exact ⟨r, hr, (hmem b).2 (Or.inr ⟨v, he2, hkb2⟩)⟩
  · obtain ⟨_, r, hr, hmem⟩ := predecessors_spec hinv2 ∅ b v hv2
    exact ⟨r, hr, (hmem a).2 (Or.inr ⟨u, he2, hka2⟩)⟩

theorem added_edge_in_successors_and_predecessors_witness :
    has_node (runCalls Graph.empty [.add_node "a" "h0", .add_node "b" "h1"]) "a" = true ∧
    (∃ s, (successors ∅ "a"
        (runCalls (add_edge "a" "b" (runCalls Graph.empty
          [.add_node "a" "h0", .add_node "b" "h1"])).2
          [.add_node "c" "h2", .add_edge "a" "c"])).1 = .ok s ∧ "b" ∈ s) :=
  ⟨by decide,
   (added_edge_in_successors_and_predecessors [.add_node "a" "h0", .add_node "b" "h1"]
      [.add_node "c" "h2", .add_edge "a" "c"] "a" "b" (by decide) (by decide)).2.1⟩

/-! ## Matrix cells -/

theorem Square.mset {n : Nat} {d : DistanceMatrix} (h : Square n d) (i j : Nat) (v : Int) :
    Square n (mset d i j v) := by
  obtain ⟨hl, hr⟩ := h
  refine ⟨by simp [Binmap.mset, hl], ?_⟩
  intro row hrow
  unfold Binmap.mset at hrow
  by_cases hi : i < d.length
  · rcases List.mem_or_eq_of_mem_set hrow with h1 | h1
    · exact hr row h1
    · subst h1
      rw [List.length_set, List.getD_eq_getElem _ _ hi]
      exact hr _ (List.getElem_mem _)
  · rw [List.set_eq_of_length_le (Nat.le_of_not_lt hi)] at hrow
    exact hr _ hrow

theorem mget_mset {n : Nat} {d : DistanceMatrix} (h : Square n d) {i j : Nat}
    (hi : i < n) (hj : j < n) (v : Int) (a b : Nat) :
    mget (mset d i j v) a b = if a = i ∧ b = j then v else mget d a b := by
  obtain ⟨hl, hr⟩ := h
  have hi2 : i < d.length := by omega
  have hrow : (d.getD i []).length = n := by
    rw [List.getD_eq_getElem _ _ hi2]; exact hr _ (List.getElem_mem _)
  unfold Binmap.mget Binmap.mset
  by_cases ha : a = i
  · subst ha
    have : (d.set a ((d.getD a []).set j v)).getD a [] = (d.getD a []).set j v := by
      rw [List.getD_eq_getElem?_getD, List.getElem?_set_self hi2]; rfl
    rw [this]
    by_cases hb : b = j
    · subst hb
      rw [List.getD_eq_getElem?_getD, List.getElem?_set_self (by omega)]; simp
    · rw [List.getD_eq_getElem?_getD, List.getElem?_set_ne (fun e => hb e.symm)]
      simp [hb, List.getD_eq_getElem?_getD]
  · have : (d.set i ((d.getD i []).set j v)).getD a [] = d.getD a [] := by
      rw [List.getD_eq_getElem?_getD, List.getElem?_set_ne (fun e => ha e.symm),
        List.getD_eq_getElem?_getD]
    rw [this]; simp [ha]

theorem mget_of_getElem? {d : DistanceMatrix} {i j : Nat} {row : List Int} {x : Int}
    (h1 : d[i]? = some row) (h2 : row[j]? = some x) : mget d i j = x := by
  unfold Binmap.mget
  simp [List.getD_eq_getElem?_getD, h1, h2]

theorem Square.getElem? {n : Nat} {d : DistanceMatrix} (h : Square n d) {i j : Nat}
    (hi : i < n) (hj : j < n) :
    ∃ row, d[i]? = some row ∧ ∃ x, row[j]? = some x := by
  obtain ⟨hl, hr⟩ := h
  have hi2 : i < d.length := by omega
  refine ⟨d[i], List.getElem?_eq_getElem hi2, ?_⟩
  have hlen : (d[i]).length = n := hr _ (List.getElem_mem _)
  exact ⟨(d[i])[j], List.getElem?_eq_getElem (by omega)⟩

theorem Square.replicate (n : Nat) : Square n (List.replicate n (List.replicate n (0 : Int))) := by
  refine ⟨by simp, ?_⟩
  intro row hrow
  rw [List.eq_of_mem_replicate hrow]; simp

theorem forVertices_invariant {σ : Type} (P : Nat → σ → Prop) (n : Nat) (body : Nat → σ → σ)
    (s : σ) (h0 : P 0 s) (hstep : ∀ m, m < n → ∀ t, P m t → P (m + 1) (body m t)) :
    P n (forVertices n body s) := by
  induction n with
  | zero => exact h0
  | succ m ih =>
    exact hstep m (Nat.lt_succ_self m) _
      (ih (fun i hi t ht => hstep i (Nat.lt_succ_of_lt hi) t ht))

/-! ## The loops of the Boost algorithm, cell by cell -/

theorem floyd_warshall_dispatch_eq (n : Nat) (inf : Int) (d : DistanceMatrix) :
    floyd_warshall_dispatch n inf d = forVertices n (fun k d => fwRound n inf k d) d := rfl

theorem fwRound_cells {n : Nat} {d : DistanceMatrix} (hsq : Square n d) (inf : Int) {k : Nat}
    (hcol : ∀ a, a < n → roundCell inf (mget d) k a k = mget d a k)
    (hrow : ∀ b, b < n → roundCell inf (mget d) k k b = mget d k b) (hk : k < n) :
    Square n (fwRound n inf k d) ∧
    ∀ a b, a < n → b < n → mget (fwRound n inf k d) a b = roundCell inf (mget d) k a b := by
  have hP := forVertices_invariant
    (fun i d1 => Square n d1 ∧ ∀ a b, a < n → b < n →
      mget d1 a b = if a < i then roundCell inf (mget d) k a b else mget d a b)
    n (fun i d => if mget d i k ≠ inf then forVertices n (fun j d => relax inf k i j d) d else d)
    d ⟨hsq, fun a b _ _ => by simp⟩ ?_
  · beta_reduce at hP
    refine ⟨hP.1, fun a b ha hb => ?_⟩
    have := hP.2 a b ha hb
    rw [if_pos ha] at this
    exact this
  · intro i hi d1 ⟨hsq1, hc1⟩
    beta_reduce
    have hcol1 : ∀ a, a < n → mget d1 a k = mget d a k := by
      intro a ha
      rw [hc1 a k ha hk]
      split
      · exact hcol a ha
      · rfl
    by_cases hik : mget d1 i k ≠ inf
    · rw [if_pos hik]
      have hik0 : mget d i k ≠ inf := by rw [← hcol1 i hi]; exact hik
      have hQ := forVertices_invariant
        (fun j d2 => Square n d2 ∧ ∀ a b, a < n → b < n →
          mget d2 a b = if a < i ∨ (a = i ∧ b < j) then roundCell inf (mget d) k a b
            else mget d a b)
        n (fun j d => relax inf k i j d) d1 ⟨hsq1, fun a b ha hb => ?_⟩ ?_
      · beta_reduce at hQ
        refine ⟨hQ.1, fun a b ha hb => ?_⟩
        rw [hQ.2 a b ha hb]
        by_cases h1 : a < i + 1
        · rw [if_pos h1, if_pos]
          rcases Nat.lt_succ_iff_lt_or_eq.1 h1 with h | h
          · exact Or.inl h
          · exact Or.inr ⟨h, hb⟩
        · rw [if_neg h1, if_neg]
          rintro (h | ⟨h, _⟩) <;> omega
      · rw [hc1 a b ha hb]
        by_cases h1 : a < i
        · rw [if_pos h1, if_pos (Or.inl h1)]
        · rw [if_neg h1, if_neg]
          rintro (h | ⟨_, h⟩)
          · exact h1 h
          · exact Nat.not_lt_zero _ h
      · intro j hj d2 ⟨hsq2, hc2⟩
        beta_reduce
        have e_kj : mget d2 k j = mget d k j := by
          rw [hc2 k j hk hj]
          split
          · exact hrow j hj
          · rfl
        have e_ik : mget d2 i k = mget d i k := by
          rw [hc2 i k hi hk]
          split
          · exact hcol i hi
          · rfl
        have e_ij : mget d2 i j = mget d i j := by
          rw [hc2 i j hi hj, if_neg]
          rintro (h | ⟨_, h⟩) <;> omega
        unfold relax
        rw [e_kj, e_ik, e_ij]
        by_cases hkj : mget d k j ≠ inf
        · rw [if_pos hkj]
          refine ⟨hsq2.mset i j _, fun a b ha hb => ?_⟩
          rw [mget_mset hsq2 hi hj]
          by_cases hab : a = i ∧ b = j
          · rw [if_pos hab, if_pos (Or.inr ⟨hab.1, by omega⟩), hab.1, hab.2]
            unfold roundCell
            rw [if_pos ⟨hik0, hkj⟩]
          · rw [if_neg hab, hc2 a b ha hb]
            by_cases h1 : a < i ∨ (a = i ∧ b < j)
            · rw [if_pos h1, if_pos]
              rcases h1 with h | ⟨h, h2⟩
              · exact Or.inl h
              · exact Or.inr ⟨h, by omega⟩
            · rw [if_neg h1, if_neg]
              rintro (h | ⟨h, h2⟩)
              · exact h1 (Or.inl h)
              · rcases Nat.lt_succ_iff_lt_or_eq.1 h2 with h3 | h3
                · exact h1 (Or.inr ⟨h, h3⟩)
                · exact hab ⟨h, h3⟩
        · rw [if_neg hkj]
          refine ⟨hsq2, fun a b ha hb => ?_⟩
          rw [hc2 a b ha hb]
          by_cases h1 : a < i ∨ (a = i ∧ b < j)
          · rw [if_pos h1, if_pos]
            rcases h1 with h | ⟨h, h2⟩
            · exact Or.inl h
            · exact Or.inr ⟨h, by omega⟩
          · rw [if_neg h1]
            by_cases hab : a = i ∧ b = j
            · rw [if_pos (Or.inr ⟨hab.1, by omega⟩), hab.1, hab.2]
              unfold roundCell
              rw [if_neg (fun h => hkj h.2)]
            · rw [if_neg]
              rintro (h | ⟨h, h2⟩)
              · exact h1 (Or.inl h)
              · rcases Nat.lt_succ_iff_lt_or_eq.1 h2 with h3 | h3
                · exact h1 (Or.inr ⟨h, h3⟩)
                · exact hab ⟨h, h3⟩
    · rw [if_neg hik]
      have hik0 : ¬ mget d i k ≠ inf := by rw [← hcol1 i hi]; exact hik
      refine ⟨hsq1, fun a b ha hb => ?_⟩
      rw [hc1 a b ha hb]
      by_cases h1 : a < i
      · rw [if_pos h1, if_pos (Nat.lt_succ_of_lt h1)]
      · rw [if_neg h1]
        by_cases h2 : a = i
        · rw [if_pos (by omega), h2]
          unfold roundCell
          rw [if_neg (fun h => hik0 h.1)]
        · rw [if_neg (by omega)]

theorem fill_inf_cells {n : Nat} {d : DistanceMatrix} (hsq : Square n d) (inf : Int) :
    Square n (forVertices n (fun i d => forVertices n (fun j d => mset d i j inf) d) d) ∧
    ∀ a b, a < n → b < n →
      mget (forVertices n (fun i d => forVertices n (fun j d => mset d i j inf) d) d) a b
        = inf := by
  have hP := forVertices_invariant
    (fun i d1 => Square n d1 ∧ ∀ a b, a < n → b < n → a < i → mget d1 a b = inf)
    n (fun i d => forVertices n (fun j d => mset d i j inf) d) d
    ⟨hsq, fun a b _ _ h => absurd h (Nat.not_lt_zero _)⟩ ?_
  · beta_reduce at hP
    exact ⟨hP.1, fun a b ha hb => hP.2 a b ha hb ha⟩
  · intro i hi d1 ⟨hsq1, hc1⟩
    beta_reduce
    have hQ := forVertices_invariant
      (fun j d2 => Square n d2 ∧ ∀ a b, a < n → b < n → (a < i ∨ (a = i ∧ b < j)) →
        mget d2 a b = inf)
      n (fun j d => mset d i j inf) d1 ⟨hsq1, fun a b ha hb h => ?_⟩ ?_
    · beta_reduce at hQ
      refine ⟨hQ.1, fun a b ha hb h => hQ.2 a b ha hb ?_⟩
      rcases Nat.lt_succ_iff_lt_or_eq.1 h with h1 | h1
      · exact Or.inl h1
      · exact Or.inr ⟨h1, hb⟩
    · rcases h with h | ⟨_, h⟩
      · exact hc1 a b ha hb h
      · exact absurd h (Nat.not_lt_zero _)
    · intro j hj d2 ⟨hsq2, hc2⟩
      beta_reduce
      refine ⟨hsq2.mset i j inf, fun a b ha hb h => ?_⟩
      rw [mget_mset hsq2 hi hj]
      by_cases hab : a = i ∧ b = j
      · rw [if_pos hab]
      · rw [if_neg hab]
        apply hc2 a b ha hb
        rcases h with h | ⟨h, h2⟩
        · exact Or.inl h
        · rcases Nat.lt_succ_iff_lt_or_eq.1 h2 with h3 | h3
          · exact Or.inr ⟨h, h3⟩
          · exact absurd ⟨h, h3⟩ hab

theorem zero_diagonal_cells {n : Nat} {d : DistanceMatrix} (hsq : Square n d) (inf : Int)
    (hd : ∀ a b, a < n → b < n → mget d a b = inf) :
    Square n (forVertices n (fun i d => mset d i i 0) d) ∧
    ∀ a b, a < n → b < n →
      mget (forVertices n (fun i d => mset d i i 0) d) a b = if a = b then 0 else inf := by
  have hP := forVertices_invariant
    (fun i d1 => Square n d1 ∧ ∀ a b, a < n → b < n →
      mget d1 a b = if a = b ∧ a < i then 0 else inf)
    n (fun i d => mset d i i 0) d ⟨hsq, fun a b ha hb => ?_⟩ ?_
  · beta_reduce at hP
    refine ⟨hP.1, fun a b ha hb => ?_⟩
    rw [hP.2 a b ha hb]
    by_cases hab : a = b
    · rw [if_pos ⟨hab, ha⟩, if_pos hab]
    · rw [if_neg (fun h => hab h.1), if_neg hab]
  · rw [hd a b ha hb, if_neg (fun h => Nat.not_lt_zero _ h.2)]
  · intro i hi d1 ⟨hsq1, hc1⟩
    beta_reduce
    refine ⟨hsq1.mset i i 0, fun a b ha hb => ?_⟩
    rw [mget_mset hsq1 hi hi]
    by_cases hab : a = i ∧ b = i
    · rw [if_pos hab, if_pos ⟨by omega, by omega⟩]
    · rw [if_neg hab, hc1 a b ha hb]
      by_cases h1 : a = b ∧ a < i
      · rw [if_pos h1, if_pos ⟨h1.1, by omega⟩]
      · rw [if_neg h1, if_neg]
        rintro ⟨h2, h3⟩
        rcases Nat.lt_succ_iff_lt_or_eq.1 h3 with h4 | h4
        · exact h1 ⟨h2, h4⟩
        · exact hab ⟨h4, by omega⟩

theorem init_edges_cells {n : Nat} (es : List (Nat × Nat)) :
    ∀ (seen : List (Nat × Nat)) (d : DistanceMatrix), Square n d →
      (∀ e ∈ es, e.1 < n ∧ e.2 < n) →
      (∀ a b, a < n → b < n →
        mget d a b = if a = b then 0 else if (a, b) ∈ seen then 1 else INT_MAX) →
      Square n (init_edges INT_MAX 1 es d) ∧
      ∀ a b, a < n → b < n →
        mget (init_edges INT_MAX 1 es d) a b =
          if a = b then 0 else if (a, b) ∈ seen ++ es then 1 else INT_MAX := by
  induction es with
  | nil =>
    intro seen d hsq _ hc
    exact ⟨hsq, fun a b ha hb => by rw [List.append_nil]; exact hc a b ha hb⟩
  | cons e es ih =>
    intro seen d hsq hend hc
    obtain ⟨he1, he2⟩ := hend e (List.mem_cons_self _ _)
    have hstep : ∀ a b, a < n → b < n →
        mget (if mget d e.1 e.2 ≠ INT_MAX then
                mset d e.1 e.2 (min_with_compare 1 (mget d e.1 e.2))
              else mset d e.1 e.2 1) a b =
          if a = b then 0 else if (a, b) ∈ seen ++ [e] then 1 else INT_MAX := by
      intro a b ha hb
      have hcur := hc e.1 e.2 he1 he2
      by_cases hne : mget d e.1 e.2 ≠ INT_MAX
      · rw [if_pos hne, mget_mset hsq he1 he2]
        by_cases hab : a = e.1 ∧ b = e.2
        · rw [if_pos hab, hab.1, hab.2]
          by_cases hee : e.1 = e.2
          · rw [if_pos hee] at hcur ⊢
            rw [hcur]; rfl
          · rw [if_neg hee] at hcur ⊢
            by_cases hs : (e.1, e.2) ∈ seen
            · rw [if_pos hs] at hcur
              rw [hcur, if_pos (List.mem_append_left _ hs)]; rfl
            · rw [if_neg hs] at hcur
              exact absurd hcur hne
        · rw [if_neg hab, hc a b ha hb]
          by_cases hab2 : a = b
          · rw [if_pos hab2, if_pos hab2]
          · rw [if_neg hab2, if_neg hab2]
            have : (a, b) ∈ seen ++ [e] ↔ (a, b) ∈ seen := by
              rw [List.mem_append, List.mem_singleton]
              constructor
              · rintro (h | h)
                · exact h
                · exact absurd ⟨congrArg Prod.fst h, congrArg Prod.snd h⟩ hab
              · exact Or.inl
            simp only [this]
      · rw [if_neg hne, mget_mset hsq he1 he2]
        have hinf : mget d e.1 e.2 = INT_MAX := not_not.1 hne
        by_cases hab : a = e.1 ∧ b = e.2
        · rw [if_pos hab, hab.1, hab.2]
          by_cases hee : e.1 = e.2
          · rw [if_pos hee] at hcur
            rw [hcur] at hinf; exact absurd hinf (by decide)
          · rw [if_neg hee, if_pos]
            simp
        · rw [if_neg hab, hc a b ha hb]
          by_cases hab2 : a = b
          · rw [if_pos hab2, if_pos hab2]
          · rw [if_neg hab2, if_neg hab2]
            have : (a, b) ∈ seen ++ [e] ↔ (a, b) ∈ seen := by
              rw [List.mem_append, List.mem_singleton]
              constructor
              · rintro (h | h)
                · exact h
                · exact absurd ⟨congrArg Prod.fst h, congrArg Prod.snd h⟩ hab
              · exact Or.inl
            simp only [this]
    have hsq2 : Square n (if mget d e.1 e.2 ≠ INT_MAX then
                mset d e.1 e.2 (min_with_compare 1 (mget d e.1 e.2))
              else mset d e.1 e.2 1) := by
      split
      · exact hsq.mset _ _ _
      · exact hsq.mset _ _ _
    have := ih (seen ++ [e]) _ hsq2 (fun x hx => hend x (List.mem_cons_of_mem _ hx)) hstep
    simp only [List.append_assoc, List.singleton_append] at this
    exact this

/-! ## Walks with bounded intermediate vertices -/

theorem Via.mono {E : Nat → Nat → Prop} {k m u v : Nat} {p : List Nat}
    (h : Via E k u v p) (hkm : k ≤ m) : Via E m u v p :=
  ⟨h.1, fun x hx => Nat.lt_of_lt_of_le (h.2 x hx) hkm⟩

theorem Via.through {E : Nat → Nat → Prop} {k u v : Nat} {p q : List Nat}
    (h1 : Via E k u k p) (h2 : Via E k k v q) : Via E (k + 1) u v (p ++ k :: q) := by
  constructor
  · have : (p ++ k :: q) ++ [v] = p ++ k :: (q ++ [v]) := by simp
    rw [this, List.chain_split]
    exact ⟨h1.1, h2.1⟩
  · intro x hx
    rcases List.mem_append.1 hx with h | h
    · exact Nat.lt_succ_of_lt (h1.2 x h)
    · rcases List.mem_cons.1 h with h | h
      · rw [h]; exact Nat.lt_succ_self k
      · exact Nat.lt_succ_of_lt (h2.2 x h)

theorem Via.simple {E : Nat → Nat → Prop} {k v : Nat} (p : List Nat) :
    ∀ u, Via E k u v p → ∃ q, Via E k u v q ∧ q.Nodup ∧ q.length ≤ p.length := by
  induction p with
  | nil => intro u h; exact ⟨[], h, List.nodup_nil, Nat.le_refl _⟩
  | cons x p ih =>
    intro u h
    have hux : E u x := (List.chain_cons.1 h.1).1
    have hrest : Via E k x v p :=
      ⟨(List.chain_cons.1 h.1).2, fun y hy => h.2 y (List.mem_cons_of_mem _ hy)⟩
    have hxk : x < k := h.2 x (List.mem_cons_self _ _)
    obtain ⟨q, hq, hnd, hlen⟩ := ih x hrest
    by_cases hx : x ∈ q
    · obtain ⟨s, t, rfl⟩ := List.append_of_mem hx
      have hch : List.Chain E x (s ++ x :: (t ++ [v])) := by
        have := hq.1
        simpa using this
      have ht : List.Chain E x (t ++ [v]) := (List.chain_split.1 hch).2
      have hnd2 : (x :: t).Nodup := hnd.of_append_right
      refine ⟨x :: t, ⟨?_, ?_⟩, hnd2, ?_⟩
      · exact List.chain_cons.2 ⟨hux, ht⟩
      · intro y hy
        exact hq.2 y (List.mem_append_right _ hy)
      · simp only [List.length_append, List.length_cons] at hlen ⊢
        omega
    · refine ⟨x :: q, ⟨?_, ?_⟩, List.nodup_cons.2 ⟨hx, hnd⟩, ?_⟩
      · exact List.chain_cons.2 ⟨hux, hq.1⟩
      · intro y hy
        rcases List.mem_cons.1 hy with h1 | h1
        · rw [h1]; exact hxk
        · exact hq.2 y h1
      · simp only [List.length_cons]; omega

theorem Via.split {E : Nat → Nat → Prop} {k u v : Nat} {q : List Nat}
    (h : Via E (k + 1) u v q) (hnd : q.Nodup) :
    Via E k u v q ∨
    ∃ q1 q2, q = q1 ++ k :: q2 ∧ Via E k u k q1 ∧ Via E k k v q2 := by
  by_cases hk : k ∈ q
  · right
    obtain ⟨s, t, rfl⟩ := List.append_of_mem hk
    have hch : List.Chain E u (s ++ k :: (t ++ [v])) := by
      have := h.1
      simpa using this
    obtain ⟨h1, h2⟩ := List.chain_split.1 hch
    have hdis := List.nodup_append.1 hnd
    have hks : k ∉ s := fun hs => hdis.2.2 hs (List.mem_cons_self _ _) 
    have hkt : k ∉ t := (List.nodup_cons.1 hdis.2.1).1
    refine ⟨s, t, rfl, ⟨h1, ?_⟩, ⟨h2, ?_⟩⟩
    · intro x hx
      have := h.2 x (List.mem_append_left _ hx)
      have hne : x ≠ k := fun e => hks (e ▸ hx)
      omega
    · intro x hx
      have := h.2 x (List.mem_append_right _ (List.mem_cons_of_mem _ hx))
      have hne : x ≠ k := fun e => hkt (e ▸ hx)
      omega
  · left
    refine ⟨h.1, fun x hx => ?_⟩
    have := h.2 x hx
    have hne : x ≠ k := fun e => hk (e ▸ hx)
    omega

theorem nodup_length_le_of_lt {k : Nat} {q : List Nat} (hnd : q.Nodup)
    (hlt : ∀ x ∈ q, x < k) : q.length ≤ k := by
  have hsub : q ⊆ List.range k := fun x hx => List.mem_range.2 (hlt x hx)
  have := (List.subperm_of_subset hnd hsub).length_le
  simpa using this

theorem Via.last_edge {E : Nat → Nat → Prop} {k v : Nat} (p : List Nat) :
    ∀ u, Via E k u v p → ∃ w, E w v := by
  induction p with
  | nil => intro u h; exact ⟨u, List.chain_singleton.1 h.1⟩
  | cons x p ih =>
    intro u h
    exact ih x ⟨(List.chain_cons.1 h.1).2, fun y hy => h.2 y (List.mem_cons_of_mem _ hy)⟩

theorem via_of_reflTransGen {E : Nat → Nat → Prop} {n u v : Nat}
    (hE : ∀ a b, E a b → b < n) (h : Relation.ReflTransGen E u v) :
    u = v ∨ ∃ p, Via E n u v p := by
  induction h with
  | refl => exact Or.inl rfl
  | tail hab hbc ih =>
    rename_i b c
    right
    rcases ih with rfl | ⟨p, hp⟩
    · exact ⟨[], List.chain_singleton.2 hbc, by simp⟩
    · refine ⟨p ++ [b], ?_, ?_⟩
      · have : (p ++ [b]) ++ [c] = p ++ b :: [c] := by simp
        rw [this, List.chain_split]
        exact ⟨hp.1, List.chain_singleton.2 hbc⟩
      · intro x hx
        rcases List.mem_append.1 hx with h1 | h1
        · exact hp.2 x h1
        · rw [List.mem_singleton.1 h1]
          obtain ⟨w, hw⟩ := Via.last_edge p u hp
          exact hE _ _ hw

theorem reflTransGen_of_via {E : Nat → Nat → Prop} {k u v : Nat} {p : List Nat}
    (h : Via E k u v p) : Relation.ReflTransGen E u v :=
  List.relationReflTransGen_of_exists_chain (p ++ [v]) h.1 (by simp)

/-! ## Exactness of the distance matrix -/

theorem wrap32_of_range (x : Int) (h0 : -2147483648 ≤ x) (h1 : x ≤ 2147483647) :
    wrap32 x = x := by
  unfold wrap32; omega

theorem Exact.bound {E : Nat → Nat → Prop} {n k : Nat} {f : Nat → Nat → Int}
    (h : Exact E n k f) {a b : Nat} (ha : a < n) (hb : b < n) (hne : f a b ≠ INT_MAX) :
    0 ≤ f a b ∧ f a b ≤ (k : Int) + 1 := by
  by_cases hab : a = b
  · subst hab
    rw [h.diag a ha]; omega
  · obtain ⟨p, hp, hlen⟩ := h.sound a b ha hb hab hne
    obtain ⟨q, hq, hnd, _⟩ := Via.simple p a hp
    have h1 := (h.best a b q ha hb hq).2
    have h2 := nodup_length_le_of_lt hnd hq.2
    omega

theorem Exact.congr {E : Nat → Nat → Prop} {n k : Nat} {f f2 : Nat → Nat → Int}
    (h : Exact E n k f) (heq : ∀ a b, a < n → b < n → f2 a b = f a b) : Exact E n k f2 := by
  constructor
  · intro a ha; rw [heq a a ha ha]; exact h.diag a ha
  · intro a b ha hb hab hne
    rw [heq a b ha hb] at hne ⊢
    exact h.sound a b ha hb hab hne
  · intro a b p ha hb hp
    rw [heq a b ha hb]
    exact h.best a b p ha hb hp

theorem Exact.of_initial_cells (g : Graph) (n : Nat) (f : Nat → Nat → Int)
    (hf : ∀ a b, a < n → b < n →
      f a b = if a = b then 0 else if (a, b) ∈ g.edges then 1 else INT_MAX) :
    Exact (edgeRel g) n 0 f := by
  constructor
  · intro a ha; rw [hf a a ha ha, if_pos rfl]
  · intro a b ha hb hab hne
    rw [hf a b ha hb, if_neg hab] at hne ⊢
    by_cases he : (a, b) ∈ g.edges
    · rw [if_pos he]
      exact ⟨[], ⟨List.chain_singleton.2 he, by simp⟩, by simp⟩
    · rw [if_neg he] at hne; exact absurd rfl hne
  · intro a b p ha hb hp
    have hnil : p = [] := by
      cases p with
      | nil => rfl
      | cons x p => exact absurd (hp.2 x (List.mem_cons_self _ _)) (Nat.not_lt_zero _)
    subst hnil
    have he : (a, b) ∈ g.edges := List.chain_singleton.1 hp.1
    rw [hf a b ha hb]
    by_cases hab : a = b
    · rw [if_pos hab]; simp [INT_MAX]
    · rw [if_neg hab, if_pos he]; simp [INT_MAX]

theorem Exact.roundCell_eq {E : Nat → Nat → Prop} {n k : Nat} {f : Nat → Nat → Int}
    (h : Exact E n k f) (hk : k < n) (hn : n < 1073741824) {a b : Nat}
    (ha : a < n) (hb : b < n) :
    roundCell INT_MAX f k a b =
      if f a k ≠ INT_MAX ∧ f k b ≠ INT_MAX then
        (if f a b < f a k + f k b then f a b else f a k + f k b)
      else f a b := by
  unfold roundCell
  by_cases hc : f a k ≠ INT_MAX ∧ f k b ≠ INT_MAX
  · rw [if_pos hc, if_pos hc]
    have b1 := h.bound ha hk hc.1
    have b2 := h.bound hk hb hc.2
    unfold min_with_compare closed_plus
    rw [if_neg hc.1, if_neg hc.2, wrap32_of_range _ (by omega) (by omega)]
  · rw [if_neg hc, if_neg hc]

theorem Exact.roundCell_col {E : Nat → Nat → Prop} {n k : Nat} {f : Nat → Nat → Int}
    (h : Exact E n k f) (hk : k < n) (hn : n < 1073741824) {a : Nat} (ha : a < n) :
    roundCell INT_MAX f k a k = f a k := by
  rw [h.roundCell_eq hk hn ha hk, h.diag k hk]
  split
  · split <;> omega
  · rfl

theorem Exact.roundCell_row {E : Nat → Nat → Prop} {n k : Nat} {f : Nat → Nat → Int}
    (h : Exact E n k f) (hk : k < n) (hn : n < 1073741824) {b : Nat} (hb : b < n) :
    roundCell INT_MAX f k k b = f k b := by
  rw [h.roundCell_eq hk hn hk hb, h.diag k hk]
  split
  · split <;> omega
  · rfl

theorem Exact.round {E : Nat → Nat → Prop} {n k : Nat} {f : Nat → Nat → Int}
    (h : Exact E n k f) (hk : k < n) (hn : n < 1073741824) :
    Exact E n (k + 1) (roundCell INT_MAX f k) := by
  constructor
  · intro a ha
    rw [h.roundCell_eq hk hn ha ha, h.diag a ha]
    by_cases hc : f a k ≠ INT_MAX ∧ f k a ≠ INT_MAX
    · rw [if_pos hc]
      have b1 := h.bound ha hk hc.1
      have b2 := h.bound hk ha hc.2
      split <;> omega
    · rw [if_neg hc]
  · intro a b ha hb hab hne
    rw [h.roundCell_eq hk hn ha hb] at hne ⊢
    have keep : f a b ≠ INT_MAX →
        ∃ p, Via E (k + 1) a b p ∧ f a b = (p.length : Int) + 1 := by
      intro h1
      obtain ⟨p, hp, hlen⟩ := h.sound a b ha hb hab h1
      exact ⟨p, hp.mono (Nat.le_succ k), hlen⟩
    by_cases hc : f a k ≠ INT_MAX ∧ f k b ≠ INT_MAX
    · rw [if_pos hc] at hne ⊢
      by_cases hlt : f a b < f a k + f k b
      · rw [if_pos hlt] at hne ⊢
        exact keep hne
      · rw [if_neg hlt] at hne ⊢
        by_cases hak : a = k
        · subst hak
          rw [h.diag a ha, zero_add] at hne ⊢
          exact keep hne
        · by_cases hbk : b = k
          · subst hbk
            rw [h.diag b hb, add_zero] at hne ⊢
            exact keep hne
          · obtain ⟨p1, hp1, hl1⟩ := h.sound a k ha hk hak hc.1
            obtain ⟨p2, hp2, hl2⟩ := h.sound k b hk hb (fun e => hbk e.symm) hc.2
            refine ⟨p1 ++ k :: p2, hp1.through hp2, ?_⟩
            rw [hl1, hl2]
            simp only [List.length_append, List.length_cons]
            push_cast
            ring
    · rw [if_neg hc] at hne ⊢
      exact keep hne
  · intro a b p ha hb hp
    obtain ⟨q, hq, hnd, hlen⟩ := Via.simple p a hp
    rw [h.roundCell_eq hk hn ha hb]
    rcases hq.split hnd with h1 | ⟨q1, q2, rfl, h1, h2⟩
    · obtain ⟨c1, c2⟩ := h.best a b q ha hb h1
      by_cases hc : f a k ≠ INT_MAX ∧ f k b ≠ INT_MAX
      · rw [if_pos hc]
        have b1 := h.bound ha hk hc.1
        have b2 := h.bound hk hb hc.2
        by_cases hlt : f a b < f a k + f k b
        · rw [if_pos hlt]
          exact ⟨c1, by omega⟩
        · rw [if_neg hlt]
          refine ⟨?_, by omega⟩
          simp only [INT_MAX]; omega
      · rw [if_neg hc]
        exact ⟨c1, by omega⟩
    · obtain ⟨c1, c2⟩ := h.best a k q1 ha hk h1
      obtain ⟨c3, c4⟩ := h.best k b q2 hk hb h2
      have b1 := h.bound ha hk c1
      have b2 := h.bound hk hb c3
      rw [if_pos ⟨c1, c3⟩]
      simp only [List.length_append, List.length_cons] at hlen
      by_cases hlt : f a b < f a k + f k b
      · rw [if_pos hlt]
        refine ⟨?_, by omega⟩
        simp only [INT_MAX]; omega
      · rw [if_neg hlt]
        refine ⟨?_, by omega⟩
        simp only [INT_MAX]; omega

theorem floyd_warshall_exact (g : Graph) (n : Nat) (d0 : DistanceMatrix) (hsq : Square n d0)
    (hend : ∀ e ∈ g.edges, e.1 < n ∧ e.2 < n) (hn : n < 1073741824) :
    Square n (floyd_warshall_all_pairs_shortest_paths n g.edges 1 d0) ∧
    Exact (edgeRel g) n n (mget (floyd_warshall_all_pairs_shortest_paths n g.edges 1 d0)) := by
  unfold floyd_warshall_all_pairs_shortest_paths
  obtain ⟨s1, c1⟩ := fill_inf_cells hsq INT_MAX
  obtain ⟨s2, c2⟩ := zero_diagonal_cells s1 INT_MAX c1
  obtain ⟨s3, c3⟩ := init_edges_cells g.edges [] _ s2 hend
    (fun a b ha hb => by rw [c2 a b ha hb]; simp)
  simp only [List.nil_append] at c3
  have h0 := Exact.of_initial_cells g n _ c3
  rw [floyd_warshall_dispatch_eq]
  have hP := forVertices_invariant
    (fun k d => Square n d ∧ Exact (edgeRel g) n k (mget d)) n
    (fun k d => fwRound n INT_MAX k d) _ ⟨s3, h0⟩ ?_
  · exact hP
  · intro k hk d ⟨hs, he⟩
    beta_reduce
    obtain ⟨hs2, hc⟩ := fwRound_cells hs INT_MAX
      (fun a ha => he.roundCell_col hk hn ha) (fun b hb => he.roundCell_row hk hn hb) hk
    exact ⟨hs2, (he.round hk hn).congr hc⟩

theorem freshMatrix_exact {g : Graph} (hinv : StoreInv g) (hn : size g < 1073741824) :
    Square (size g) (freshMatrix g) ∧
    Exact (edgeRel g) (size g) (size g) (mget (freshMatrix g)) :=
  floyd_warshall_exact g (num_vertices g) _ (Square.replicate _) hinv.endpoints hn

theorem Exact.reachable_iff {g : Graph} {n : Nat} {f : Nat → Nat → Int}
    (h : Exact (edgeRel g) n n f) (hend : ∀ e ∈ g.edges, e.1 < n ∧ e.2 < n)
    {u v : Nat} (hu : u < n) (hv : v < n) :
    f u v ≠ INT_MAX ↔ Relation.ReflTransGen (edgeRel g) u v := by
  constructor
  · intro hne
    by_cases huv : u = v
    · rw [huv]
    · obtain ⟨p, hp, _⟩ := h.sound u v hu hv huv hne
      exact reflTransGen_of_via hp
  · intro hr
    rcases via_of_reflTransGen (fun a b hab => (hend (a, b) hab).2) hr with rfl | ⟨p, hp⟩
    · rw [h.diag u hu]; simp [INT_MAX]
    · exact (h.best u v p hu hv hp).1

theorem compute_distance_matrix_current {g : Graph} (hc : Current g) :
    compute_distance_matrix g = { g with distance_matrix_ := some (freshMatrix g) } := by
  unfold compute_distance_matrix
  rcases hc with h | h
  · rw [h]; rfl
  · cases hdm : g.distance_matrix_ with
    | none => rfl
    | some d =>
      cases g with
      | mk vs es m dm =>
        show Graph.mk vs es m dm = Graph.mk vs es m _
        exact congrArg (Graph.mk vs es m) h

theorem has_path_current {g : Graph} (hinv : StoreInv g) (hc : Current g)
    (hn : size g < 1073741824) {a b : Path} {u v : Nat}
    (ha : mapFind g.mapping_ a = some u) (hb : mapFind g.mapping_ b = some v) :
    ∃ r, (has_path a b g).1 = .ok r ∧ (r = true ↔ Relation.ReflTransGen (edgeRel g) u v) := by
  obtain ⟨hsq, hex⟩ := freshMatrix_exact hinv hn
  have hu : u < size g := hinv.find_lt ha
  have hv : v < size g := hinv.find_lt hb
  obtain ⟨row, hrow, x, hx⟩ := hsq.getElem? hu hv
  have hcell := mget_of_getElem? hrow hx
  have hna : has_node g a = true := by simp [has_node, ha]
  have hnb : has_node g b = true := by simp [has_node, hb]
  refine ⟨x != INT_MAX, ?_, ?_⟩
  · unfold has_path
    simp only [hna, hnb, Bool.not_true, Bool.false_eq_true, if_false]
    rw [compute_distance_matrix_current hc]
    simp only [ha, hb, hrow, hx]
  · rw [← hex.reachable_iff hinv.endpoints hu hv, hcell]
    simp

/-! ## The cached matrix across calls -/

theorem compute_distance_matrix_present {g : Graph} {d : DistanceMatrix}
    (h : g.distance_matrix_ = some d) : compute_distance_matrix g = g := by
  unfold compute_distance_matrix
  rw [h]

theorem has_path_state_ok {g : Graph} {a b : Path} (ha : has_node g a = true)
    (hb : has_node g b = true) : (has_path a b g).2 = compute_distance_matrix g := by
  unfold has_path
  simp only [ha, hb, Bool.not_true, Bool.false_eq_true, if_false]
  split
  · split
    · rfl
    · split <;> rfl
  · rfl

theorem matrix_after_insertion (c : Call) (g : Graph) (hc : c.isInsertion = true) :
    (c.after g).distance_matrix_ = g.distance_matrix_ := by
  cases c with
  | add_node k h =>
    simp only [Call.after]
    cases hk : has_node g k with
    | true => rw [add_node_existing k h g hk]
    | false => rw [add_node_fresh k h g hk]
  | add_edge a b =>
    simp only [Call.after]
    cases ha : mapFind g.mapping_ a with
    | none => rw [add_edge_missing a b g (Or.inl (by simp [has_node, ha]))]
    | some u =>
      cases hb : mapFind g.mapping_ b with
      | none => rw [add_edge_missing a b g (Or.inr (by simp [has_node, hb]))]
      | some w => rw [add_edge_found a b g u w ha hb]
  | has_path a b => cases hc

theorem matrix_after {g : Graph} (c : Call) {d : DistanceMatrix}
    (h : g.distance_matrix_ = some d) : (c.after g).distance_matrix_ = some d := by
  cases c with
  | add_node k h2 => rw [matrix_after_insertion (.add_node k h2) g rfl]; exact h
  | add_edge a b => rw [matrix_after_insertion (.add_edge a b) g rfl]; exact h
  | has_path a b =>
    simp only [Call.after]
    rcases has_path_state a b g with e | e
    · rw [e]; exact h
    · rw [e, compute_distance_matrix_present h]; exact h

theorem matrix_runCalls {g : Graph} (cs : List Call) {d : DistanceMatrix}
    (h : g.distance_matrix_ = some d) : (runCalls g cs).distance_matrix_ = some d := by
  induction cs generalizing g with
  | nil => exact h
  | cons c cs ih => exact ih (matrix_after c h)

theorem matrix_absent_after_insertions (g : Graph) (cs : List Call)
    (hcs : ∀ c ∈ cs, c.isInsertion = true) :
    (runCalls g cs).distance_matrix_ = g.distance_matrix_ := by
  induction cs generalizing g with
  | nil => rfl
  | cons c cs ih =>
    show (runCalls (c.after g) cs).distance_matrix_ = _
    rw [ih (c.after g) (fun x hx => hcs x (List.mem_cons_of_mem _ hx)),
      matrix_after_insertion c g (hcs c (List.mem_cons_self _ _))]

theorem store_after_queries (g : Graph) (cs : List Call)
    (hcs : ∀ c ∈ cs, c.isInsertion = false) :
    (runCalls g cs).vertices = g.vertices ∧ (runCalls g cs).edges = g.edges ∧
    (runCalls g cs).mapping_ = g.mapping_ := by
  induction cs generalizing g with
  | nil => exact ⟨rfl, rfl, rfl⟩
  | cons c cs ih =>
    have h1 := ih (c.after g) (fun x hx => hcs x (List.mem_cons_of_mem _ hx))
    have hc := hcs c (List.mem_cons_self _ _)
    cases c with
    | add_node k h => cases hc
    | add_edge a b => cases hc
    | has_path a b =>
      obtain ⟨e1, e2, e3⟩ := has_path_store a b g
      simp only [Call.after] at h1
      rw [e1, e2, e3] at h1
      exact h1

theorem has_path_cached {g : Graph} {d : DistanceMatrix} {a b : Path} {u v : Nat}
    {row : List Int} {x : Int} (hd : g.distance_matrix_ = some d)
    (ha : mapFind g.mapping_ a = some u) (hb : mapFind g.mapping_ b = some v)
    (hrow : d[u]? = some row) (hx : row[v]? = some x) :
    (has_path a b g).1 = .ok (x != INT_MAX) := by
  have hna : has_node g a = true := by simp [has_node, ha]
  have hnb : has_node g b = true := by simp [has_node, hb]
  unfold has_path
  simp only [hna, hnb, Bool.not_true, Bool.false_eq_true, if_false]
  rw [compute_distance_matrix_present hd]
  simp only [ha, hb, hd, hrow, hx]

theorem has_path_cached_call {g : Graph} (c : Call) {a b : Path}
    (hd : g.distance_matrix_ ≠ none) (ha : has_node g a = true) (hb : has_node g b = true) :
    (has_path a b (c.after g)).1 = (has_path a b g).1 := by
  obtain ⟨d, hd⟩ := Option.ne_none_iff_exists'.1 hd
  obtain ⟨u, hu⟩ := Option.isSome_iff_exists.1 ha
  obtain ⟨v, hv⟩ := Option.isSome_iff_exists.1 hb
  have hd2 := matrix_after c hd
  have hu2 := mapFind_after c hu
  have hv2 := mapFind_after c hv
  have hna : has_node g a = true := ha
  have hnb : has_node g b = true := hb
  have hna2 : has_node (c.after g) a = true := by simp [has_node, hu2]
  have hnb2 : has_node (c.after g) b = true := by simp [has_node, hv2]
  unfold has_path
  simp only [hna, hnb, hna2, hnb2, Bool.not_true, Bool.false_eq_true, if_false]
  rw [compute_distance_matrix_present hd, compute_distance_matrix_present hd2]
  simp only [hu, hv, hd, hu2, hv2, hd2]
  cases d[u]? with
  | none => rfl
  | some row =>
    dsimp only
    cases row[v]? <;> rfl

theorem keyPath_iff {g : Graph} {a b : Path} {u v : Nat}
    (ha : mapFind g.mapping_ a = some u) (hb : mapFind g.mapping_ b = some v) :
    KeyPath g a b ↔ Relation.ReflTransGen (edgeRel g) u v := by
  constructor
  · rintro ⟨u2, v2, h1, h2, h3⟩
    rw [ha] at h1; rw [hb] at h2
    cases h1; cases h2
    exact h3
  · intro h
    exact ⟨u, v, ha, hb, h⟩

theorem keyPath_congr {g g2 : Graph} (he : g2.edges = g.edges) (hm : g2.mapping_ = g.mapping_)
    (a b : Path) : KeyPath g2 a b ↔ KeyPath g a b := by
  unfold KeyPath edgeRel
  rw [he, hm]

theorem has_path_snapshot {g1 g : Graph} (hinv : StoreInv g1) (hn : size g1 < 1073741824)
    {a b : Path} {u v : Nat}
    (ha1 : mapFind g1.mapping_ a = some u) (hb1 : mapFind g1.mapping_ b = some v)
    (ha : mapFind g.mapping_ a = some u) (hb : mapFind g.mapping_ b = some v)
    (hd : g.distance_matrix_ = some (freshMatrix g1)) :
    ∃ r, (has_path a b g).1 = .ok r ∧ (r = true ↔ KeyPath g1 a b) := by
  obtain ⟨hsq, hex⟩ := freshMatrix_exact hinv hn
  have hu : u < size g1 := hinv.find_lt ha1
  have hv : v < size g1 := hinv.find_lt hb1
  obtain ⟨row, hrow, x, hx⟩ := hsq.getElem? hu hv
  have hcell := mget_of_getElem? hrow hx
  refine ⟨x != INT_MAX, has_path_cached hd ha hb hrow hx, ?_⟩
  rw [keyPath_iff ha1 hb1, ← hex.reachable_iff hinv.endpoints hu hv, hcell]
  simp

/-! ## Claims about reachability -/

/-- C1, as stated, fails: after inserting A, B, C and the edge A→B, querying
`has_path(A, C)` (false), and inserting the edge B→C, every call succeeded and
a path from A to C exists, yet `has_path(A, C)` still returns false: the
matrix built by the first query is not discarded by `add_edge`. -/
theorem has_path_stale_after_add_edge :
    validCalls Graph.empty
      [.add_node "A" "h1", .add_node "B" "h2", .add_node "C" "h3", .add_edge "A" "B",
       .has_path "A" "C", .add_edge "B" "C", .has_path "A" "C"] = true ∧
    KeyPath (runCalls Graph.empty
      [.add_node "A" "h1", .add_node "B" "h2", .add_node "C" "h3", .add_edge "A" "B",
       .has_path "A" "C", .add_edge "B" "C"]) "A" "C" ∧
    (has_path "A" "C" (runCalls Graph.empty
      [.add_node "A" "h1", .add_node "B" "h2", .add_node "C" "h3", .add_edge "A" "B",
       .has_path "A" "C", .add_edge "B" "C"])).1 = .ok false := by
  refine ⟨by decide, ⟨0, 2, by decide, by decide, ?_⟩, by decide⟩
  have h01 : edgeRel (runCalls Graph.empty
      [.add_node "A" "h1", .add_node "B" "h2", .add_node "C" "h3", .add_edge "A" "B",
       .has_path "A" "C", .add_edge "B" "C"]) 0 1 := by
    unfold edgeRel; decide
  have h12 : edgeRel (runCalls Graph.empty
      [.add_node "A" "h1", .add_node "B" "h2", .add_node "C" "h3", .add_edge "A" "B",
       .has_path "A" "C", .add_edge "B" "C"]) 1 2 := by
    unfold edgeRel; decide
  exact Relation.ReflTransGen.tail (Relation.ReflTransGen.single h01) h12

/-- C1, amended: let the distance matrix be absent in a state reached from the
empty graph with fewer than 2^30 vertices, and let `has_path(c, d)` be the
first query made there.  That query, and every `has_path(a, b)` made after any
further calls on keys that existed at the first query, returns true exactly
when a directed path exists in the graph as it was at the first query; when
no insertion was made since, this is the graph at the moment of the query. -/
theorem has_path_answers_for_graph_at_first_query (before later : List Call) (c d a b : Path)
    (hnone : (runCalls Graph.empty before).distance_matrix_ = none)
    (hsize : size (runCalls Graph.empty before) < 1073741824)
    (hc : has_node (runCalls Graph.empty before) c = true)
    (hd : has_node (runCalls Graph.empty before) d = true)
    (ha : has_node (runCalls Graph.empty before) a = true)
    (hb : has_node (runCalls Graph.empty before) b = true) :
    (∃ r, (has_path c d (runCalls Graph.empty before)).1 = .ok r ∧
      (r = true ↔ KeyPath (runCalls Graph.empty before) c d)) ∧
    (∃ r, (has_path a b (runCalls (has_path c d (runCalls Graph.empty before)).2 later)).1
        = .ok r ∧
      (r = true ↔ KeyPath (runCalls Graph.empty before) a b) ∧
      ((∀ q ∈ later, q.isInsertion = false) →
        (r = true ↔
          KeyPath (runCalls (has_path c d (runCalls Graph.empty before)).2 later) a b))) := by
  have hinv : StoreInv (runCalls Graph.empty before) := StoreInv.init.runCalls before
  obtain ⟨uc, huc⟩ := Option.isSome_iff_exists.1 hc
  obtain ⟨ud, hud⟩ := Option.isSome_iff_exists.1 hd
  obtain ⟨u, hu⟩ := Option.isSome_iff_exists.1 ha
  obtain ⟨v, hv⟩ := Option.isSome_iff_exists.1 hb
  constructor
  · obtain ⟨r, hr, hiff⟩ := has_path_current hinv (Or.inl hnone) hsize huc hud
    exact ⟨r, hr, hiff.trans (keyPath_iff huc hud).symm⟩
  · have hstate : (has_path c d (runCalls Graph.empty before)).2 =
        { runCalls Graph.empty before with
          distance_matrix_ := some (freshMatrix (runCalls Graph.empty before)) } := by
      rw [has_path_state_ok hc hd, compute_distance_matrix_current (Or.inl hnone)]
    rw [hstate]
    generalize hg2 : ({ runCalls Graph.empty before with
      distance_matrix_ := some (freshMatrix (runCalls Graph.empty before)) } : Graph) = g2
    have hm2 : g2.distance_matrix_ = some (freshMatrix (runCalls Graph.empty before)) := by
      rw [← hg2]
    have hu2 : mapFind g2.mapping_ a = some u := by rw [← hg2]; exact hu
    have hv2 : mapFind g2.mapping_ b = some v := by rw [← hg2]; exact hv
    have he2 : g2.edges = (runCalls Graph.empty before).edges := by rw [← hg2]
    have hmp2 : g2.mapping_ = (runCalls Graph.empty before).mapping_ := by rw [← hg2]
    obtain ⟨r, hr, hiff⟩ := has_path_snapshot hinv hsize hu hv
      (mapFind_runCalls later hu2) (mapFind_runCalls later hv2) (matrix_runCalls later hm2)
    refine ⟨r, hr, hiff, fun hq => ?_⟩
    obtain ⟨_, e2, e3⟩ := store_after_queries g2 later hq
    rw [hiff]
    exact (keyPath_congr (e2.trans he2) (e3.trans hmp2) a b).symm

theorem has_path_answers_for_graph_at_first_query_witness :
    ∃ r, (has_path "A" "C"
        (runCalls (has_path "A" "C" (runCalls Graph.empty
          [.add_node "A" "h1", .add_node "B" "h2", .add_node "C" "h3", .add_edge "A" "B"])).2
          [.add_edge "B" "C"])).1 = .ok r ∧
      (r = true ↔ KeyPath (runCalls Graph.empty
          [.add_node "A" "h1", .add_node "B" "h2", .add_node "C" "h3", .add_edge "A" "B"])
        "A" "C") :=
  let ⟨r, h1, h2, _⟩ := (has_path_answers_for_graph_at_first_query
    [.add_node "A" "h1", .add_node "B" "h2", .add_node "C" "h3", .add_edge "A" "B"]
    [.add_edge "B" "C"] "A" "C" "A" "C"
    (by decide) (by decide) (by decide) (by decide) (by decide) (by decide)).2
  ⟨r, h1, h2⟩

/-- C2: on a graph built from the empty graph by `add_node` and `add_edge`
calls only, with fewer than 2^30 vertices, for all existing keys `a` and `b`
the call `has_path(a, b)` returns a Boolean, and it is true if and only if
there is a directed path of zero or more edges from `a` to `b`. -/
theorem has_path_iff_path_exists (build : List Call) (a b : Path)
    (hbuild : ∀ c ∈ build, c.isInsertion = true)
    (hsize : size (runCalls Graph.empty build) < 1073741824)
    (ha : has_node (runCalls Graph.empty build) a = true)
    (hb : has_node (runCalls Graph.empty build) b = true) :
    ∃ r, (has_path a b (runCalls Graph.empty build)).1 = .ok r ∧
      (r = true ↔ KeyPath (runCalls Graph.empty build) a b) := by
  have hinv : StoreInv (runCalls Graph.empty build) := StoreInv.init.runCalls build
  have hnone : (runCalls Graph.empty build).distance_matrix_ = none :=
    matrix_absent_after_insertions Graph.empty build hbuild
  obtain ⟨u, hu⟩ := Option.isSome_iff_exists.1 ha
  obtain ⟨v, hv⟩ := Option.isSome_iff_exists.1 hb
  obtain ⟨r, hr, hiff⟩ := has_path_current hinv (Or.inl hnone) hsize hu hv
  exact ⟨r, hr, hiff.trans (keyPath_iff hu hv).symm⟩

theorem has_path_iff_path_exists_witness :
    (has_path "a" "b" (runCalls Graph.empty
      [.add_node "a" "h1", .add_node "b" "h2", .add_node "c" "h3",
       .add_edge "a" "c", .add_edge "c" "b"])).1 = .ok true ∧
    ∃ r, (has_path "a" "b" (runCalls Graph.empty
      [.add_node "a" "h1", .add_node "b" "h2", .add_node "c" "h3",
       .add_edge "a" "c", .add_edge "c" "b"])).1 = .ok r ∧
      (r = true ↔ KeyPath (runCalls Graph.empty
        [.add_node "a" "h1", .add_node "b" "h2", .add_node "c" "h3",
         .add_edge "a" "c", .add_edge "c" "b"]) "a" "b") :=
  ⟨by decide,
   has_path_iff_path_exists
    [.add_node "a" "h1", .add_node "b" "h2", .add_node "c" "h3",
     .add_edge "a" "c", .add_edge "c" "b"] "a" "b"
    (by decide) (by decide) (by decide) (by decide)⟩

/-- C3, as stated, fails: after `add_node(A)`, `has_path(A, A)` (which builds
a matrix with one row) and `add_node(B)`, all of which succeed, `B` names a
vertex but `has_path(B, B)` indexes the matrix at row 1, outside its storage. -/
theorem has_path_self_out_of_bounds :
    validCalls Graph.empty
      [.add_node "A" "h1", .has_path "A" "A", .add_node "B" "h2"] = true ∧
    has_node (runCalls Graph.empty
      [.add_node "A" "h1", .has_path "A" "A", .add_node "B" "h2"]) "B" = true ∧
    (has_path "B" "B" (runCalls Graph.empty
      [.add_node "A" "h1", .has_path "A" "A", .add_node "B" "h2"])).1
      = .error .out_of_bounds := by
  decide

/-- C3, amended: in a state reached from the empty graph with fewer than 2^30
vertices, `has_path(x, x)` returns true for every key `x` that names a
vertex when the distance matrix is absent, and, once a first query has built
the matrix, after any further calls for every key `x` that named a vertex at
that first query. -/
theorem has_path_self_when_vertex_known_to_matrix :
    (∀ (calls : List Call) (x : Path),
      (runCalls Graph.empty calls).distance_matrix_ = none →
      size (runCalls Graph.empty calls) < 1073741824 →
      has_node (runCalls Graph.empty calls) x = true →
      (has_path x x (runCalls Graph.empty calls)).1 = .ok true) ∧
    (∀ (before later : List Call) (c d x : Path),
      (runCalls Graph.empty before).distance_matrix_ = none →
      size (runCalls Graph.empty before) < 1073741824 →
      has_node (runCalls Graph.empty before) c = true →
      has_node (runCalls Graph.empty before) d = true →
      has_node (runCalls Graph.empty before) x = true →
      (has_path x x (runCalls (has_path c d (runCalls Graph.empty before)).2 later)).1
        = .ok true) := by
  constructor
  · intro calls x hnone hsize hx
    have hinv : StoreInv (runCalls Graph.empty calls) := StoreInv.init.runCalls calls
    obtain ⟨u, hu⟩ := Option.isSome_iff_exists.1 hx
    obtain ⟨r, hr, hiff⟩ := has_path_current hinv (Or.inl hnone) hsize hu hu
    rw [hr, hiff.2 Relation.ReflTransGen.refl]
  · intro before later c d x hnone hsize hc hd hx
    have hinv : StoreInv (runCalls Graph.empty before) := StoreInv.init.runCalls before
    obtain ⟨u, hu⟩ := Option.isSome_iff_exists.1 hx
    have hstate : (has_path c d (runCalls Graph.empty before)).2 =
        { runCalls Graph.empty before with
          distance_matrix_ := some (freshMatrix (runCalls Graph.empty before)) } := by
      rw [has_path_state_ok hc hd, compute_distance_matrix_current (Or.inl hnone)]
    rw [hstate]
    generalize hg2 : ({ runCalls Graph.empty before with
      distance_matrix_ := some (freshMatrix (runCalls Graph.empty before)) } : Graph) = g2
    have hm2 : g2.distance_matrix_ = some (freshMatrix (runCalls Graph.empty before)) := by
      rw [← hg2]
    have hu2 : mapFind g2.mapping_ x = some u := by rw [← hg2]; exact hu
    obtain ⟨r, hr, hiff⟩ := has_path_snapshot hinv hsize hu hu
      (mapFind_runCalls later hu2) (mapFind_runCalls later hu2) (matrix_runCalls later hm2)
    rw [hr, hiff.2 ⟨u, u, hu, hu, Relation.ReflTransGen.refl⟩]

theorem has_path_self_when_vertex_known_to_matrix_witness :
    (has_path "A" "A" (runCalls (has_path "A" "A" (runCalls Graph.empty
      [.add_node "A" "h1"])).2 [.add_node "B" "h2"])).1 = .ok true :=
  has_path_self_when_vertex_known_to_matrix.2 [.add_node "A" "h1"] [.add_node "B" "h2"]
    "A" "A" "A" (by decide) (by decide) (by decide) (by decide) (by decide)

/-! ## Stability of vertex identities -/

theorem hash_of_find {g : Graph} {k : Path} {v : Nat} {x : Vertex}
    (hf : mapFind g.mapping_ k = some v) (hx : g.vertices[v]? = some x) :
    (hash k g).1 = .ok x.hash := by
  simp [hash, hf, hash_vd, hx]

theorem key_of_vertex {g : Graph} {v : Nat} {x : Vertex} (hx : g.vertices[v]? = some x) :
    key g v = .ok x.name := by
  simp [key, hx]

theorem StoreInv.vertex_of_find {g : Graph} (hinv : StoreInv g) {k : Path} {v : Nat}
    (hf : mapFind g.mapping_ k = some v) : ∃ x, g.vertices[v]? = some x ∧ x.name = k := by
  have h1 := (hinv.index k v).1 hf
  cases hx : g.vertices[v]? with
  | none => rw [hx] at h1; cases h1
  | some x =>
    rw [hx] at h1
    exact ⟨x, rfl, Option.some.inj h1⟩

/-- C11: in every state reached from the empty graph, a successful `add_node`
gives the new vertex the handle equal to the previous `size()`, and no later
call (in particular no successful `add_node` or `add_edge`) changes the
handle, the key or the hash of a vertex that already existed. -/
theorem vertex_identity_stable (calls : List Call) :
    (∀ (k : Path) (h : Hash), has_node (runCalls Graph.empty calls) k = false →
      (add_node k h (runCalls Graph.empty calls)).1 = .ok () ∧
      mapFind (add_node k h (runCalls Graph.empty calls)).2.mapping_ k
        = some (size (runCalls Graph.empty calls))) ∧
    (∀ (c : Call) (k : Path) (v : Nat),
      mapFind (runCalls Graph.empty calls).mapping_ k = some v →
      mapFind (c.after (runCalls Graph.empty calls)).mapping_ k = some v ∧
      key (runCalls Graph.empty calls) v = .ok k ∧
      key (c.after (runCalls Graph.empty calls)) v = .ok k ∧
      (∃ h, (hash k (runCalls Graph.empty calls)).1 = .ok h ∧
        (hash k (c.after (runCalls Graph.empty calls))).1 = .ok h ∧
        hash_vd (runCalls Graph.empty calls) v = .ok h ∧
        hash_vd (c.after (runCalls Graph.empty calls)) v = .ok h)) := by
  have hinv : StoreInv (runCalls Graph.empty calls) := StoreInv.init.runCalls calls
  constructor
  · intro k h hk
    have hnone : mapFind (runCalls Graph.empty calls).mapping_ k = none := by
      simpa [has_node] using hk
    rw [add_node_fresh k h _ hk]
    refine ⟨rfl, ?_⟩
    show mapFind ((runCalls Graph.empty calls).mapping_ ++
      [(k, (runCalls Graph.empty calls).vertices.length)]) k = _
    rw [mapFind_append_single, hnone]
    simp [size, num_vertices]
  · intro c k v hf
    obtain ⟨x, hx, hname⟩ := hinv.vertex_of_find hf
    have hf2 := mapFind_after c hf
    have hx2 := vertex_after c hx
    refine ⟨hf2, ?_, ?_, x.hash, hash_of_find hf hx, hash_of_find hf2 hx2, ?_, ?_⟩
    · rw [key_of_vertex hx, hname]
    · rw [key_of_vertex hx2, hname]
    · simp [hash_vd, hx]
    · simp [hash_vd, hx2]

theorem vertex_identity_stable_witness :
    mapFind (Call.after (.add_node "c" "h2")
      (runCalls Graph.empty [.add_node "a" "h0", .add_node "b" "h1"])).mapping_ "b" = some 1 ∧
    mapFind (add_node "c" "h2"
      (runCalls Graph.empty [.add_node "a" "h0", .add_node "b" "h1"])).2.mapping_ "c" = some 2 :=
  ⟨((vertex_identity_stable [.add_node "a" "h0", .add_node "b" "h1"]).2
      (.add_node "c" "h2") "b" 1 (by decide)).1,
   ((vertex_identity_stable [.add_node "a" "h0", .add_node "b" "h1"]).1
      "c" "h2" (by decide)).2.trans (by decide)⟩

/-! ## The matrix is built once -/

theorem compute_distance_matrix_idem (g : Graph) :
    compute_distance_matrix (compute_distance_matrix g) = compute_distance_matrix g := by
  cases hd : g.distance_matrix_ with
  | some d => rw [compute_distance_matrix_present hd, compute_distance_matrix_present hd]
  | none =>
    have h1 : (compute_distance_matrix g).distance_matrix_ = some (freshMatrix g) := by
      unfold compute_distance_matrix
      rw [hd]; rfl
    exact compute_distance_matrix_present h1

theorem has_node_compute (g : Graph) (k : Path) :
    has_node (compute_distance_matrix g) k = has_node g k := by
  unfold has_node
  rw [(compute_distance_matrix_store g).2.2]

theorem has_path_rejected (a b : Path) (g : Graph)
    (h : ¬ (has_node g a = true ∧ has_node g b = true)) :
    has_path a b g = (.error .assertion, g) := by
  unfold has_path
  by_cases ha : has_node g a = true
  · have hb : ¬ has_node g b = true := fun hb => h ⟨ha, hb⟩
    simp [ha, hb]
  · simp [ha]

theorem has_path_twice (a b : Path) (g : Graph) :
    has_path a b (has_path a b g).2 = has_path a b g := by
  by_cases h : has_node g a = true ∧ has_node g b = true
  · obtain ⟨ha, hb⟩ := h
    rw [has_path_state_ok ha hb]
    have ha2 := (has_node_compute g a).trans ha
    have hb2 := (has_node_compute g b).trans hb
    unfold has_path
    simp only [ha, hb, ha2, hb2, Bool.not_true, Bool.false_eq_true, if_false]
    rw [compute_distance_matrix_idem]
  · have e := has_path_rejected a b g h
    rw [e]
    exact e

/-- C15: the distance matrix is built once and reused: when it is present
`compute_distance_matrix` changes nothing, calling it twice equals calling it
once, two consecutive `has_path(a, b)` calls return the same answer, and
`has_path` never changes the vertices, the edges or the key index. -/
theorem distance_matrix_built_once :
    (∀ (g : Graph) (d : DistanceMatrix), g.distance_matrix_ = some d →
      compute_distance_matrix g = g) ∧
    (∀ g : Graph,
      compute_distance_matrix (compute_distance_matrix g) = compute_distance_matrix g) ∧
    (∀ (g : Graph) (a b : Path),
      (has_path a b (has_path a b g).2).1 = (has_path a b g).1 ∧
      (has_path a b (has_path a b g).2).2 = (has_path a b g).2) ∧
    (∀ (g : Graph) (a b : Path),
      (has_path a b g).2.vertices = g.vertices ∧
      (has_path a b g).2.edges = g.edges ∧
      (has_path a b g).2.mapping_ = g.mapping_) := by
  refine ⟨fun g d h => compute_distance_matrix_present h, compute_distance_matrix_idem,
    fun g a b => ?_, fun g a b => has_path_store a b g⟩
  rw [has_path_twice]
  exact ⟨rfl, rfl⟩

theorem distance_matrix_built_once_witness :
    compute_distance_matrix (runCalls Graph.empty
      [.add_node "a" "h0", .add_node "b" "h1", .add_edge "a" "b", .has_path "a" "b"])
    = runCalls Graph.empty
      [.add_node "a" "h0", .add_node "b" "h1", .add_edge "a" "b", .has_path "a" "b"] :=
  distance_matrix_built_once.1 _ [[0, 1], [2147483647, 0]] (by decide)

/-! ## Adjacency queries -/

theorem StoreInv.key_iff_find {g : Graph} (hinv : StoreInv g) (k : Path) (v : Nat) :
    key g v = .ok k ↔ mapFind g.mapping_ k = some v := by
  rw [key_eq_ok_iff, hinv.index]

theorem successors_mem {g : Graph} (hinv : StoreInv g) (S : Finset Path) {a : Path} {u : Nat}
    (ha : mapFind g.mapping_ a = some u) :
    ∃ r, (successors S a g).1 = .ok r ∧
      ∀ b, b ∈ r ↔ b ∈ S ∨ ∃ v, mapFind g.mapping_ b = some v ∧ (u, v) ∈ g.edges := by
  obtain ⟨_, r, hr, hmem⟩ := successors_spec hinv S a u ha
  refine ⟨r, hr, fun b => ?_⟩
  rw [hmem b]
  apply or_congr_right
  constructor
  · rintro ⟨v, hv, hk⟩
    exact ⟨v, (hinv.key_iff_find b v).1 hk, hv⟩
  · rintro ⟨v, hk, hv⟩
    exact ⟨v, hv, (hinv.key_iff_find b v).2 hk⟩

theorem predecessors_mem {g : Graph} (hinv : StoreInv g) (S : Finset Path) {b : Path} {v : Nat}
    (hb : mapFind g.mapping_ b = some v) :
    ∃ r, (predecessors S b g).1 = .ok r ∧
      ∀ a, a ∈ r ↔ a ∈ S ∨ ∃ u, mapFind g.mapping_ a = some u ∧ (u, v) ∈ g.edges := by
  obtain ⟨_, r, hr, hmem⟩ := predecessors_spec hinv S b v hb
  refine ⟨r, hr, fun a => ?_⟩
  rw [hmem a]
  apply or_congr_right
  constructor
  · rintro ⟨u, hu, hk⟩
    exact ⟨u, (hinv.key_iff_find a u).1 hk, hu⟩
  · rintro ⟨u, hk, hu⟩
    exact ⟨u, hu, (hinv.key_iff_find a u).2 hk⟩

/-- C17: in every state reached from the empty graph both endpoints of every
stored edge are handles below `size()`, and for every existing key the index
lookup, `edge_begin`, `edge_end`, every `key(target)` and `key(source)`
lookup, `successors` and `predecessors` all succeed. -/
theorem edge_endpoints_are_vertices (calls : List Call) :
    (∀ e ∈ (runCalls Graph.empty calls).edges,
      e.1 < size (runCalls Graph.empty calls) ∧ e.2 < size (runCalls Graph.empty calls)) ∧
    (∀ k : Path, has_node (runCalls Graph.empty calls) k = true →
      ∃ v, mapFind (runCalls Graph.empty calls).mapping_ k = some v ∧
        v < size (runCalls Graph.empty calls) ∧
        (edge_begin k (runCalls Graph.empty calls)).1 = .ok (v, 0) ∧
        (edge_end k (runCalls Graph.empty calls)).1
          = .ok (v, (out_edges (runCalls Graph.empty calls) v).length) ∧
        (∀ e ∈ out_edges (runCalls Graph.empty calls) v,
          ∃ t, key (runCalls Graph.empty calls) e.2 = .ok t) ∧
        (∀ e ∈ in_edges (runCalls Graph.empty calls) v,
          ∃ s, key (runCalls Graph.empty calls) e.1 = .ok s) ∧
        (∀ S, ∃ r, (successors S k (runCalls Graph.empty calls)).1 = .ok r) ∧
        (∀ S, ∃ r, (predecessors S k (runCalls Graph.empty calls)).1 = .ok r)) := by
  have hinv : StoreInv (runCalls Graph.empty calls) := StoreInv.init.runCalls calls
  generalize runCalls Graph.empty calls = g at hinv
  have hkey : ∀ w, w < g.vertices.length → ∃ t, key g w = .ok t := by
    intro w hw
    exact ⟨_, key_of_vertex (List.getElem?_eq_getElem hw)⟩
  refine ⟨hinv.endpoints, fun k hk => ?_⟩
  obtain ⟨v, hv⟩ := Option.isSome_iff_exists.1 hk
  refine ⟨v, hv, hinv.find_lt hv, ?_, ?_, ?_, ?_, ?_, ?_⟩
  · simp [edge_begin, hk, hv]
  · simp [edge_end, hk, hv]
  · intro e he
    exact hkey _ (hinv.endpoints e (List.mem_of_mem_filter he)).2
  · intro e he
    exact hkey _ (hinv.endpoints e (List.mem_of_mem_filter he)).1
  · intro S
    obtain ⟨r, hr, _⟩ := successors_mem hinv S hv
    exact ⟨r, hr⟩
  · intro S
    obtain ⟨r, hr, _⟩ := predecessors_mem hinv S hv
    exact ⟨r, hr⟩

/-- C18: successors and predecessors are dual: in every state reached from
the empty graph, for all existing keys `a` and `b`, both queries succeed and
`b` is in `successors(a)` if and only if `a` is in `predecessors(b)`. -/
theorem successors_predecessors_dual (calls : List Call) (a b : Path)
    (ha : has_node (runCalls Graph.empty calls) a = true)
    (hb : has_node (runCalls Graph.empty calls) b = true) :
    ∃ s p, (successors ∅ a (runCalls Graph.empty calls)).1 = .ok s ∧
      (predecessors ∅ b (runCalls Graph.empty calls)).1 = .ok p ∧
      (b ∈ s ↔ a ∈ p) := by
  have hinv : StoreInv (runCalls Graph.empty calls) := StoreInv.init.runCalls calls
  obtain ⟨u, hu⟩ := Option.isSome_iff_exists.1 ha
  obtain ⟨v, hv⟩ := Option.isSome_iff_exists.1 hb
  obtain ⟨s, hs, hsm⟩ := successors_mem hinv ∅ hu
  obtain ⟨p, hp, hpm⟩ := predecessors_mem hinv ∅ hv
  refine ⟨s, p, hs, hp, ?_⟩
  rw [hsm b, hpm a]
  constructor
  · rintro (h | ⟨v2, h1, h2⟩)
    · simp at h
    · rw [hv] at h1; cases h1
      exact Or.inr ⟨u, hu, h2⟩
  · rintro (h | ⟨u2, h1, h2⟩)
    · simp at h
    · rw [hu] at h1; cases h1
      exact Or.inr ⟨v, hv, h2⟩

theorem successors_predecessors_dual_witness :
    ∃ s p, (successors ∅ "a" (runCalls Graph.empty
        [.add_node "a" "h0", .add_node "b" "h1", .add_edge "a" "b"])).1 = .ok s ∧
      (predecessors ∅ "b" (runCalls Graph.empty
        [.add_node "a" "h0", .add_node "b" "h1", .add_edge "a" "b"])).1 = .ok p ∧
      ("b" ∈ s ↔ "a" ∈ p) :=
  successors_predecessors_dual [.add_node "a" "h0", .add_node "b" "h1", .add_edge "a" "b"]
    "a" "b" (by decide) (by decide)

/-! ## Frame of `add_edge` -/

theorem StoreInv.find_inj {g : Graph} (hinv : StoreInv g) {k1 k2 : Path} {v : Nat}
    (h1 : mapFind g.mapping_ k1 = some v) (h2 : mapFind g.mapping_ k2 = some v) : k1 = k2 := by
  have e1 := (hinv.index k1 v).1 h1
  have e2 := (hinv.index k2 v).1 h2
  rw [e1] at e2
  exact Option.some.inj e2

theorem successors_absent (S : Finset Path) (k : Path) (g : Graph)
    (hk : has_node g k = false) : (successors S k g).1 = .error .assertion := by
  simp [successors, hk]

theorem predecessors_absent (S : Finset Path) (k : Path) (g : Graph)
    (hk : has_node g k = false) : (predecessors S k g).1 = .error .out_of_bounds := by
  have : mapFind g.mapping_ k = none := by simpa [has_node] using hk
  simp [predecessors, this]

/-- C19: in a state reached from the empty graph, a successful
`add_edge(from, to)` changes only the adjacency of its endpoints: `size()`,
`has_node(k)` and `hash(k)` are the same for every key, `successors(k)` is the
same for every key other than `from`, `predecessors(k)` is the same for every
key other than `to`, `successors(from)` gains exactly `to` and
`predecessors(to)` gains exactly `from`. -/
theorem add_edge_frame (calls : List Call) (a b : Path)
    (ha : has_node (runCalls Graph.empty calls) a = true)
    (hb : has_node (runCalls Graph.empty calls) b = true) :
    (add_edge a b (runCalls Graph.empty calls)).1 = .ok () ∧
    size (add_edge a b (runCalls Graph.empty calls)).2 = size (runCalls Graph.empty calls) ∧
    (∀ k, has_node (add_edge a b (runCalls Graph.empty calls)).2 k
        = has_node (runCalls Graph.empty calls) k) ∧
    (∀ k, (hash k (add_edge a b (runCalls Graph.empty calls)).2).1
        = (hash k (runCalls Graph.empty calls)).1) ∧
    (∀ k S, k ≠ a → (successors S k (add_edge a b (runCalls Graph.empty calls)).2).1
        = (successors S k (runCalls Graph.empty calls)).1) ∧
    (∀ k S, k ≠ b → (predecessors S k (add_edge a b (runCalls Graph.empty calls)).2).1
        = (predecessors S k (runCalls Graph.empty calls)).1) ∧
    (∀ S, ∃ r, (successors S a (runCalls Graph.empty calls)).1 = .ok r ∧
      (successors S a (add_edge a b (runCalls Graph.empty calls)).2).1 = .ok (insert b r)) ∧
    (∀ S, ∃ r, (predecessors S b (runCalls Graph.empty calls)).1 = .ok r ∧
      (predecessors S b (add_edge a b (runCalls Graph.empty calls)).2).1
        = .ok (insert a r)) := by
  have hinv : StoreInv (runCalls Graph.empty calls) := StoreInv.init.runCalls calls
  generalize runCalls Graph.empty calls = g at hinv ha hb
  obtain ⟨u, hu⟩ := Option.isSome_iff_exists.1 ha
  obtain ⟨w, hw⟩ := Option.isSome_iff_exists.1 hb
  have hinv2 : StoreInv (add_edge a b g).2 := hinv.add_edge a b
  rw [add_edge_found a b g u w hu hw] at hinv2 ⊢
  generalize hg2 : ({ g with edges := g.edges ++ [(u, w)] } : Graph) = g2 at hinv2
  have hv2 : g2.vertices = g.vertices := by rw [← hg2]
  have hm2 : g2.mapping_ = g.mapping_ := by rw [← hg2]
  have he2 : g2.edges = g.edges ++ [(u, w)] := by rw [← hg2]
  have hnode : ∀ k, has_node g2 k = has_node g k := by
    intro k; unfold has_node; rw [hm2]
  refine ⟨rfl, ?_, hnode, ?_, ?_, ?_, ?_, ?_⟩
  · show g2.vertices.length = g.vertices.length
    rw [hv2]
  · intro k
    unfold hash hash_vd
    rw [hm2, hv2]
    cases mapFind g.mapping_ k with
    | none => rfl
    | some v => cases g.vertices[v]? <;> rfl
  · intro k S hka
    cases hk : has_node g k with
    | false =>
      rw [successors_absent S k g hk, successors_absent S k g2 ((hnode k).trans hk)]
    | true =>
      obtain ⟨v, hv⟩ := Option.isSome_iff_exists.1 hk
      have hvu : v ≠ u := fun e => hka (hinv.find_inj (e ▸ hv) hu)
      obtain ⟨r, hr, hrm⟩ := successors_mem hinv S hv
      obtain ⟨r2, hr2, hr2m⟩ := successors_mem hinv2 S (hm2 ▸ hv)
      rw [hr, hr2]
      congr 1
      ext x
      rw [hrm x, hr2m x, hm2, he2]
      apply or_congr_right
      apply exists_congr
      intro t
      apply and_congr_right
      intro _
      rw [List.mem_append, List.mem_singleton]
      constructor
      · rintro (h | h)
        · exact h
        · exact absurd (congrArg Prod.fst h) hvu
      · exact Or.inl
  · intro k S hkb
    cases hk : has_node g k with
    | false =>
      rw [predecessors_absent S k g hk, predecessors_absent S k g2 ((hnode k).trans hk)]
    | true =>
      obtain ⟨v, hv⟩ := Option.isSome_iff_exists.1 hk
      have hvw : v ≠ w := fun e => hkb (hinv.find_inj (e ▸ hv) hw)
      obtain ⟨r, hr, hrm⟩ := predecessors_mem hinv S hv
      obtain ⟨r2, hr2, hr2m⟩ := predecessors_mem hinv2 S (hm2 ▸ hv)
      rw [hr, hr2]
      congr 1
      ext x
      rw [hrm x, hr2m x, hm2, he2]
      apply or_congr_right
      apply exists_congr
      intro t
      apply and_congr_right
      intro _
      rw [List.mem_append, List.mem_singleton]
      constructor
      · rintro (h | h)
        · exact h
        · exact absurd (congrArg Prod.snd h) hvw
      · exact Or.inl
  · intro S
    obtain ⟨r, hr, hrm⟩ := successors_mem hinv S hu
    obtain ⟨r2, hr2, hr2m⟩ := successors_mem hinv2 S (hm2 ▸ hu)
    refine ⟨r, hr, ?_⟩
    rw [hr2]
    congr 1
    ext x
    rw [hr2m x, Finset.mem_insert, hrm x, hm2, he2]
    constructor
    · rintro (h | ⟨t, ht, he⟩)
      · exact Or.inr (Or.inl h)
      · rcases List.mem_append.1 he with h | h
        · exact Or.inr (Or.inr ⟨t, ht, h⟩)
        · have : t = w := congrArg Prod.snd (List.mem_singleton.1 h)
          exact Or.inl (hinv.find_inj (this ▸ ht) hw)
    · rintro (h | h | ⟨t, ht, he⟩)
      · exact Or.inr ⟨w, h ▸ hw, List.mem_append_right _ (List.mem_singleton.2 rfl)⟩
      · exact Or.inl h
      · exact Or.inr ⟨t, ht, List.mem_append_left _ he⟩
  · intro S
    obtain ⟨r, hr, hrm⟩ := predecessors_mem hinv S hw
    obtain ⟨r2, hr2, hr2m⟩ := predecessors_mem hinv2 S (hm2 ▸ hw)
    refine ⟨r, hr, ?_⟩
    rw [hr2]
    congr 1
    ext x
    rw [hr2m x, Finset.mem_insert, hrm x, hm2, he2]
    constructor
    · rintro (h | ⟨t, ht, he⟩)
      · exact Or.inr (Or.inl h)
      · rcases List.mem_append.1 he with h | h
        · exact Or.inr (Or.inr ⟨t, ht, h⟩)
        · have : t = u := congrArg Prod.fst (List.mem_singleton.1 h)
          exact Or.inl (hinv.find_inj (this ▸ ht) hu)
    · rintro (h | h | ⟨t, ht, he⟩)
      · exact Or.inr ⟨u, h ▸ hu, List.mem_append_right _ (List.mem_singleton.2 rfl)⟩
      · exact Or.inl h
      · exact Or.inr ⟨t, ht, List.mem_append_left _ he⟩

theorem add_edge_frame_witness :
    ∃ r, (successors ∅ "a" (runCalls Graph.empty
        [.add_node "a" "h0", .add_node "b" "h1", .add_node "c" "h2", .add_edge "a" "c"])).1
        = .ok r ∧
      (successors ∅ "a" (add_edge "a" "b" (runCalls Graph.empty
        [.add_node "a" "h0", .add_node "b" "h1", .add_node "c" "h2", .add_edge "a" "c"])).2).1
        = .ok (insert "b" r) :=
  (add_edge_frame
    [.add_node "a" "h0", .add_node "b" "h1", .add_node "c" "h2", .add_edge "a" "c"]
    "a" "b" (by decide) (by decide)).2.2.2.2.2.2.1 ∅

/-! ## Edges and the calls that added them -/

theorem add_edge_ok_iff (a b : Path) (g : Graph) :
    (add_edge a b g).1 = .ok () ↔ (has_node g a = true ∧ has_node g b = true) := by
  cases ha : has_node g a with
  | false => rw [add_edge_missing a b g (Or.inl ha)]; simp
  | true =>
    cases hb : has_node g b with
    | false => rw [add_edge_missing a b g (Or.inr hb)]; simp
    | true =>
      obtain ⟨u, hu⟩ := Option.isSome_iff_exists.1 ha
      obtain ⟨v, hv⟩ := Option.isSome_iff_exists.1 hb
      rw [add_edge_found a b g u v hu hv]; simp

theorem edgeAdded_snoc (calls : List Call) (c : Call) (a b : Path) :
    EdgeAdded (calls ++ [c]) a b ↔
      EdgeAdded calls a b ∨
      (c = Call.add_edge a b ∧ (add_edge a b (runCalls Graph.empty calls)).1 = .ok ()) := by
  constructor
  · rintro ⟨before, later, heq, hok⟩
    rcases List.eq_nil_or_concat later with rfl | ⟨l2, x, rfl⟩
    · right
      have := List.append_inj' (show calls ++ [c] = before ++ [Call.add_edge a b] from heq) rfl
      obtain ⟨h1, h2⟩ := this
      subst h1
      exact ⟨by simpa using h2, hok⟩
    · left
      have h3 : calls ++ [c] = (before ++ Call.add_edge a b :: l2) ++ [x] := by
        rw [heq]; simp
      obtain ⟨h1, _⟩ := List.append_inj' h3 rfl
      exact ⟨before, l2, h1, hok⟩
  · rintro (⟨before, later, heq, hok⟩ | ⟨hc, hok⟩)
    · exact ⟨before, later ++ [c], by rw [heq]; simp, hok⟩
    · exact ⟨calls, [], by rw [hc], hok⟩

theorem edgeAdded_has_node {calls : List Call} {a b : Path} (h : EdgeAdded calls a b) :
    has_node (runCalls Graph.empty calls) a = true ∧
    has_node (runCalls Graph.empty calls) b = true := by
  obtain ⟨before, later, heq, hok⟩ := h
  obtain ⟨ha, hb⟩ := (add_edge_ok_iff a b _).1 hok
  obtain ⟨u, hu⟩ := Option.isSome_iff_exists.1 ha
  obtain ⟨v, hv⟩ := Option.isSome_iff_exists.1 hb
  have e : runCalls Graph.empty calls
      = runCalls (runCalls Graph.empty before) (Call.add_edge a b :: later) := by
    rw [heq, runCalls_append]
  rw [e]
  constructor
  · simp [has_node, mapFind_runCalls (Call.add_edge a b :: later) hu]
  · simp [has_node, mapFind_runCalls (Call.add_edge a b :: later) hv]

theorem edges_from_calls (calls : List Call) :
    ∀ (a b : Path) (u v : Nat),
      mapFind (runCalls Graph.empty calls).mapping_ a = some u →
      mapFind (runCalls Graph.empty calls).mapping_ b = some v →
      ((u, v) ∈ (runCalls Graph.empty calls).edges ↔ EdgeAdded calls a b) := by
  induction calls using List.reverseRecOn with
  | nil =>
    intro a b u v hu
    simp [runCalls, Graph.empty, mapFind] at hu
  | append_singleton calls c ih =>
    intro a b u v
    have hinv : StoreInv (runCalls Graph.empty calls) := StoreInv.init.runCalls calls
    rw [runCalls_append, edgeAdded_snoc]
    show mapFind (c.after (runCalls Graph.empty calls)).mapping_ a = some u →
      mapFind (c.after (runCalls Graph.empty calls)).mapping_ b = some v →
      ((u, v) ∈ (c.after (runCalls Graph.empty calls)).edges ↔ _)
    generalize hg : runCalls Graph.empty calls = g at ih hinv
    cases c with
    | add_node k h =>
      simp only [Call.after]
      have hne : ¬ (Call.add_node k h = Call.add_edge a b ∧ (add_edge a b g).1 = .ok ()) :=
        fun h => Call.noConfusion h.1
      rw [or_iff_left hne]
      cases hk : has_node g k with
      | true =>
        rw [add_node_existing k h g hk]
        exact ih a b u v
      | false =>
        rw [add_node_fresh k h g hk]
        intro hu hv
        have hu' : mapFind (g.mapping_ ++ [(k, g.vertices.length)]) a = some u := hu
        have hv' : mapFind (g.mapping_ ++ [(k, g.vertices.length)]) b = some v := hv
        show (u, v) ∈ g.edges ↔ _
        rw [mapFind_append_single] at hu' hv'
        cases hfa : mapFind g.mapping_ a with
        | some u0 =>
          cases hfb : mapFind g.mapping_ b with
          | some v0 =>
            rw [hfa] at hu'; rw [hfb] at hv'
            simp only [Option.some.injEq] at hu' hv'
            subst hu' hv'
            exact ih a b u0 v0 hfa hfb
          | none =>
            constructor
            · intro he
              rw [hfb] at hv'
              have hv2 : v = g.vertices.length := by
                by_cases hbk : b = k
                · simpa [hbk] using hv'.symm
                · simp [hbk] at hv'
              have := (hinv.endpoints _ he).2
              simp only at this
              omega
            · intro hadd
              have := (edgeAdded_has_node hadd).2
              rw [hg] at this
              simp [has_node, hfb] at this
        | none =>
          constructor
          · intro he
            rw [hfa] at hu'
            have hu2 : u = g.vertices.length := by
              by_cases hak : a = k
              · simpa [hak] using hu'.symm
              · simp [hak] at hu'
            have := (hinv.endpoints _ he).1
            simp only at this
            omega
          · intro hadd
            have := (edgeAdded_has_node hadd).1
            rw [hg] at this
            simp [has_node, hfa] at this
    | add_edge x y =>
      simp only [Call.after]
      cases hx : mapFind g.mapping_ x with
      | none =>
        have hxn : has_node g x = false := by simp [has_node, hx]
        rw [add_edge_missing x y g (Or.inl hxn)]
        intro hu hv
        rw [ih a b u v hu hv]
        constructor
        · exact Or.inl
        · rintro (h | ⟨hc, hok⟩)
          · exact h
          · cases hc
            have := ((add_edge_ok_iff a b g).1 hok).1
            rw [hxn] at this; cases this
      | some u0 =>
        cases hy : mapFind g.mapping_ y with
        | none =>
          have hyn : has_node g y = false := by simp [has_node, hy]
          rw [add_edge_missing x y g (Or.inr hyn)]
          intro hu hv
          rw [ih a b u v hu hv]
          constructor
          · exact Or.inl
          · rintro (h | ⟨hc, hok⟩)
            · exact h
            · cases hc
              have := ((add_edge_ok_iff a b g).1 hok).2
              rw [hyn] at this; cases this
        | some v0 =>
          rw [add_edge_found x y g u0 v0 hx hy]
          intro hu hv
          have hu' : mapFind g.mapping_ a = some u := hu
          have hv' : mapFind g.mapping_ b = some v := hv
          show (u, v) ∈ g.edges ++ [(u0, v0)] ↔ _
          rw [List.mem_append, List.mem_singleton, ih a b u v hu' hv']
          apply or_congr_right
          constructor
          · intro he
            have h1 : u = u0 := congrArg Prod.fst he
            have h2 : v = v0 := congrArg Prod.snd he
            have e1 : x = a := hinv.find_inj hx (h1 ▸ hu')
            have e2 : y = b := hinv.find_inj hy (h2 ▸ hv')
            subst e1 e2
            refine ⟨rfl, (add_edge_ok_iff x y g).2 ⟨?_, ?_⟩⟩
            · simp [has_node, hx]
            · simp [has_node, hy]
          · rintro ⟨hc, _⟩
            cases hc
            rw [hx] at hu'; rw [hy] at hv'
            cases hu'; cases hv'
            rfl
    | has_path x y =>
      simp only [Call.after]
      have hne : ¬ (Call.has_path x y = Call.add_edge a b ∧ (add_edge a b g).1 = .ok ()) :=
        fun h => Call.noConfusion h.1
      rw [or_iff_left hne]
      obtain ⟨_, e2, e3⟩ := has_path_store x y g
      rw [e2, e3]
      exact ih a b u v

/-- C16: in the state reached from the empty graph by a sequence of calls, for
every existing key `a`, `successors(a)` collected into an empty set is exactly
the set of keys `b` for which some `add_edge(a, b)` of the sequence succeeded,
and `predecessors(a)` is exactly the set of keys `c` for which some
`add_edge(c, a)` succeeded; the result is a set, so a key added several times
appears once. -/
theorem adjacency_is_set_of_added_edges (calls : List Call) (a : Path)
    (ha : has_node (runCalls Graph.empty calls) a = true) :
    (∃ s, (successors ∅ a (runCalls Graph.empty calls)).1 = .ok s ∧
      ∀ b, b ∈ s ↔ EdgeAdded calls a b) ∧
    (∃ p, (predecessors ∅ a (runCalls Graph.empty calls)).1 = .ok p ∧
      ∀ c, c ∈ p ↔ EdgeAdded calls c a) := by
  have hinv : StoreInv (runCalls Graph.empty calls) := StoreInv.init.runCalls calls
  obtain ⟨u, hu⟩ := Option.isSome_iff_exists.1 ha
  constructor
  · obtain ⟨s, hs, hsm⟩ := successors_mem hinv ∅ hu
    refine ⟨s, hs, fun b => ?_⟩
    rw [hsm b]
    constructor
    · rintro (h | ⟨v, hv, he⟩)
      · simp at h
      · exact (edges_from_calls calls a b u v hu hv).1 he
    · intro hadd
      obtain ⟨v, hv⟩ := Option.isSome_iff_exists.1 (edgeAdded_has_node hadd).2
      exact Or.inr ⟨v, hv, (edges_from_calls calls a b u v hu hv).2 hadd⟩
  · obtain ⟨p, hp, hpm⟩ := predecessors_mem hinv ∅ hu
    refine ⟨p, hp, fun c => ?_⟩
    rw [hpm c]
    constructor
    · rintro (h | ⟨v, hv, he⟩)
      · simp at h
      · exact (edges_from_calls calls c a v u hv hu).1 he
    · intro hadd
      obtain ⟨v, hv⟩ := Option.isSome_iff_exists.1 (edgeAdded_has_node hadd).1
      exact Or.inr ⟨v, hv, (edges_from_calls calls c a v u hv hu).2 hadd⟩

theorem adjacency_is_set_of_added_edges_witness :
    (successors ∅ "a" (runCalls Graph.empty
      [.add_node "a" "h0", .add_node "b" "h1", .add_edge "a" "b", .add_edge "a" "b"])).1
      = .ok {"b"} ∧
    ∃ s, (successors ∅ "a" (runCalls Graph.empty
        [.add_node "a" "h0", .add_node "b" "h1", .add_edge "a" "b", .add_edge "a" "b"])).1
        = .ok s ∧
      ∀ b, b ∈ s ↔ EdgeAdded
        [.add_node "a" "h0", .add_node "b" "h1", .add_edge "a" "b", .add_edge "a" "b"] "a" b :=
  ⟨by decide,
   (adjacency_is_set_of_added_edges
    [.add_node "a" "h0", .add_node "b" "h1", .add_edge "a" "b", .add_edge "a" "b"]
    "a" (by decide)).1⟩

/-! ## The matrix holds minimum hop counts -/

theorem freshMatrix_eq_rounds (g : Graph) :
    freshMatrix g = matrixBeforeRound g (num_vertices g) := rfl

theorem matrixBeforeRound_exact {g : Graph} (hinv : StoreInv g) (hn : size g < 1073741824)
    (k : Nat) (hk : k ≤ size g) :
    Square (size g) (matrixBeforeRound g k) ∧
    Exact (edgeRel g) (size g) k (mget (matrixBeforeRound g k)) := by
  obtain ⟨s1, c1⟩ := fill_inf_cells (Square.replicate (num_vertices g)) INT_MAX
  obtain ⟨s2, c2⟩ := zero_diagonal_cells s1 INT_MAX c1
  obtain ⟨s3, c3⟩ := init_edges_cells g.edges [] _ s2 hinv.endpoints
    (fun a b ha hb => by rw [c2 a b ha hb]; simp)
  simp only [List.nil_append] at c3
  have h0 := Exact.of_initial_cells g (num_vertices g) _ c3
  have hP := forVertices_invariant
    (fun k d => Square (size g) d ∧ Exact (edgeRel g) (size g) k (mget d)) k
    (fun k d => fwRound (num_vertices g) INT_MAX k d) (matrixBeforeRounds g) ⟨s3, h0⟩ ?_
  · exact hP
  · intro m hm d ⟨hs, he⟩
    beta_reduce
    have hmn : m < size g := Nat.lt_of_lt_of_le hm hk
    obtain ⟨hs2, hc⟩ := fwRound_cells hs INT_MAX
      (fun a ha => he.roundCell_col hmn hn ha) (fun b hb => he.roundCell_row hmn hn hb) hmn
    exact ⟨hs2, (he.round hmn hn).congr hc⟩

theorem chain_targets {E : Nat → Nat → Prop} (l : List Nat) :
    ∀ u, List.Chain E u l → ∀ x ∈ l, ∃ w, E w x := by
  induction l with
  | nil => intro u _ x hx; cases hx
  | cons y l ih =>
    intro u h x hx
    rcases List.mem_cons.1 hx with rfl | hx
    · exact ⟨u, (List.chain_cons.1 h).1⟩
    · exact ih y (List.chain_cons.1 h).2 x hx

theorem via_of_chain {g : Graph} {n i j : Nat} {p : List Nat}
    (hend : ∀ e ∈ g.edges, e.1 < n ∧ e.2 < n)
    (h : List.Chain (edgeRel g) i (p ++ [j])) : Via (edgeRel g) n i j p := by
  refine ⟨h, fun x hx => ?_⟩
  obtain ⟨w, hw⟩ := chain_targets (p ++ [j]) i h x (List.mem_append_left _ hx)
  exact (hend (w, x) hw).2

theorem Exact.hops {g : Graph} {n : Nat} {f : Nat → Nat → Int}
    (h : Exact (edgeRel g) n n f) (hend : ∀ e ∈ g.edges, e.1 < n ∧ e.2 < n)
    {i j : Nat} (hi : i < n) (hj : j < n) :
    (i = j → f i j = 0) ∧
    (∀ m, HopPath g i j m → f i j ≠ INT_MAX ∧ f i j ≤ (m : Int)) ∧
    (f i j ≠ INT_MAX → ∃ m, HopPath g i j m ∧ f i j = (m : Int)) := by
  refine ⟨fun e => by rw [e]; exact h.diag j hj, ?_, ?_⟩
  · rintro m (⟨e, hm⟩ | ⟨p, hp, hm⟩)
    · rw [e, hm, h.diag j hj]
      simp [INT_MAX]
    · have := h.best i j p hi hj (via_of_chain hend hp)
      rw [hm]
      push_cast
      exact this
  · intro hne
    by_cases hij : i = j
    · exact ⟨0, Or.inl ⟨hij, rfl⟩, by rw [hij, h.diag j hj]; rfl⟩
    · obtain ⟨p, hp, hlen⟩ := h.sound i j hi hj hij hne
      exact ⟨p.length + 1, Or.inr ⟨p, hp.1, rfl⟩, by rw [hlen]; push_cast; rfl⟩

/-- C14: in a state reached from the empty graph with `n` vertices, `n` below
2^30, and no matrix yet, `compute_distance_matrix` builds an `n`×`n` table in
which, for all handles `i` and `j`, the cell `(i, j)` is the minimum number of
edges of a directed path from `i` to `j` (0 when `i = j`) and is `INT_MAX`
exactly when there is no such path; and whenever the triple loop adds two
cells, in the round for `k`, both are finite, the sum is exact (no wrap-around)
and stays below `INT_MAX`, while the round leaves row `k` and column `k` as
they were.  The table is the one reached when all `n` rounds are done. -/
theorem distance_matrix_holds_min_hops (calls : List Call)
    (hnone : (runCalls Graph.empty calls).distance_matrix_ = none)
    (hsize : size (runCalls Graph.empty calls) < 1073741824) :
    ∃ d, (compute_distance_matrix (runCalls Graph.empty calls)).distance_matrix_ = some d ∧
      d = matrixBeforeRound (runCalls Graph.empty calls) (size (runCalls Graph.empty calls)) ∧
      d.length = size (runCalls Graph.empty calls) ∧
      (∀ row ∈ d, row.length = size (runCalls Graph.empty calls)) ∧
      (∀ i j, i < size (runCalls Graph.empty calls) → j < size (runCalls Graph.empty calls) →
        (i = j → mget d i j = 0) ∧
        (mget d i j = INT_MAX ↔ ¬ ∃ m, HopPath (runCalls Graph.empty calls) i j m) ∧
        (mget d i j ≠ INT_MAX →
          ∃ m, HopPath (runCalls Graph.empty calls) i j m ∧ mget d i j = (m : Int) ∧
            ∀ m2, HopPath (runCalls Graph.empty calls) i j m2 → m ≤ m2)) ∧
      (∀ k i j, k < size (runCalls Graph.empty calls) →
        i < size (runCalls Graph.empty calls) → j < size (runCalls Graph.empty calls) →
        (mget (matrixBeforeRound (runCalls Graph.empty calls) (k + 1)) i k
          = mget (matrixBeforeRound (runCalls Graph.empty calls) k) i k) ∧
        (mget (matrixBeforeRound (runCalls Graph.empty calls) (k + 1)) k j
          = mget (matrixBeforeRound (runCalls Graph.empty calls) k) k j) ∧
        (mget (matrixBeforeRound (runCalls Graph.empty calls) k) i k ≠ INT_MAX →
         mget (matrixBeforeRound (runCalls Graph.empty calls) k) k j ≠ INT_MAX →
          closed_plus INT_MAX (mget (matrixBeforeRound (runCalls Graph.empty calls) k) i k)
              (mget (matrixBeforeRound (runCalls Graph.empty calls) k) k j)
            = mget (matrixBeforeRound (runCalls Graph.empty calls) k) i k
              + mget (matrixBeforeRound (runCalls Graph.empty calls) k) k j ∧
          mget (matrixBeforeRound (runCalls Graph.empty calls) k) i k
              + mget (matrixBeforeRound (runCalls Graph.empty calls) k) k j < INT_MAX)) := by
  have hinv : StoreInv (runCalls Graph.empty calls) := StoreInv.init.runCalls calls
  generalize runCalls Graph.empty calls = g at hinv hnone hsize
  obtain ⟨hsq, hex⟩ := freshMatrix_exact hinv hsize
  refine ⟨freshMatrix g, ?_, freshMatrix_eq_rounds g, hsq.1, hsq.2, ?_, ?_⟩
  · rw [compute_distance_matrix_current (Or.inl hnone)]
  · intro i j hi hj
    obtain ⟨h0, hbest, hsound⟩ := hex.hops hinv.endpoints hi hj
    refine ⟨h0, ?_, ?_⟩
    · constructor
      · rintro he ⟨m, hm⟩
        exact (hbest m hm).1 he
      · intro hno
        by_contra hne
        obtain ⟨m, hm, _⟩ := hsound hne
        exact hno ⟨m, hm⟩
    · intro hne
      obtain ⟨m, hm, hval⟩ := hsound hne
      refine ⟨m, hm, hval, fun m2 hm2 => ?_⟩
      have := (hbest m2 hm2).2
      rw [hval] at this
      exact_mod_cast this
  · intro k i j hk hi hj
    obtain ⟨hs, he⟩ := matrixBeforeRound_exact hinv hsize k (Nat.le_of_lt hk)
    obtain ⟨_, hc⟩ := fwRound_cells hs INT_MAX
      (fun a ha => he.roundCell_col hk hsize ha) (fun b hb => he.roundCell_row hk hsize hb) hk
    have hnext : matrixBeforeRound g (k + 1)
        = fwRound (num_vertices g) INT_MAX k (matrixBeforeRound g k) := rfl
    refine ⟨?_, ?_, ?_⟩
    · rw [hnext]
      exact (hc i k hi hk).trans (he.roundCell_col hk hsize hi)
    · rw [hnext]
      exact (hc k j hk hj).trans (he.roundCell_row hk hsize hj)
    · intro h1 h2
      have b1 := he.bound hi hk h1
      have b2 := he.bound hk hj h2
      have hk2 : (k : Int) < 1073741824 := by
        have : k < 1073741824 := Nat.lt_trans hk hsize
        exact_mod_cast this
      constructor
      · unfold closed_plus
        rw [if_neg h1, if_neg h2, wrap32_of_range _ (by omega) (by omega)]
      · simp only [INT_MAX]; omega

theorem distance_matrix_holds_min_hops_witness :
    ∃ d, (compute_distance_matrix (runCalls Graph.empty
        [.add_node "a" "h0", .add_node "b" "h1", .add_node "c" "h2",
         .add_edge "a" "b", .add_edge "b" "c"])).distance_matrix_ = some d ∧
      d = [[0, 1, 2], [2147483647, 0, 1], [2147483647, 2147483647, 0]] :=
  let ⟨d, h1, _⟩ := distance_matrix_holds_min_hops
    [.add_node "a" "h0", .add_node "b" "h1", .add_node "c" "h2",
     .add_edge "a" "b", .add_edge "b" "c"] (by decide) (by decide)
  ⟨d, h1, Option.some.inj (h1.symm.trans (by decide))⟩

/-! ## The exported text -/

theorem write_graphviz_parallel_edges :
    write_graphviz (runCalls Graph.empty
      [.add_node "a" "h0", .add_node "b" "h1", .add_edge "b" "a", .add_edge "a" "b",
       .add_edge "a" "b"])
    = [DotStatement.open_graph, DotStatement.vertex 0 "a", DotStatement.vertex 1 "b",
       DotStatement.edge 0 1, DotStatement.edge 0 1, DotStatement.edge 1 0,
       DotStatement.close_graph] := by
  decide

/-! ## Accumulation into the set of the caller -/

/-- C20: `successors` and `predecessors` accumulate into the set of the
caller: in the state reached from the empty graph by a sequence of calls, for
every existing key `k` and every initial content `S`, the set after
`successors` holds exactly the elements of `S` and the keys `b` with a stored
edge from the vertex of `k` to the vertex of `b`, which are the keys `b` for
which an `add_edge(k, b)` of the sequence succeeded; it is `S` united with
the result for the empty set, no element of `S` is removed, and a second call
on the result changes nothing.  The same holds for `predecessors` with the
edges into the vertex of `k`. -/
theorem adjacency_accumulates (calls : List Call) (k : Path) (S : Finset Path)
    (hk : has_node (runCalls Graph.empty calls) k = true) :
    (∃ r r0, (successors S k (runCalls Graph.empty calls)).1 = .ok r ∧
      (successors ∅ k (runCalls Graph.empty calls)).1 = .ok r0 ∧
      r = S ∪ r0 ∧ S ⊆ r ∧
      (successors r k (runCalls Graph.empty calls)).1 = .ok r ∧
      (∀ b, b ∈ r0 ↔ EdgeAdded calls k b) ∧
      (∀ b, b ∈ r ↔ b ∈ S ∨ EdgeAdded calls k b) ∧
      (∀ b, b ∈ r ↔ b ∈ S ∨ ∃ u v, mapFind (runCalls Graph.empty calls).mapping_ k = some u ∧
        mapFind (runCalls Graph.empty calls).mapping_ b = some v ∧
        (u, v) ∈ (runCalls Graph.empty calls).edges)) ∧
    (∃ r r0, (predecessors S k (runCalls Graph.empty calls)).1 = .ok r ∧
      (predecessors ∅ k (runCalls Graph.empty calls)).1 = .ok r0 ∧
      r = S ∪ r0 ∧ S ⊆ r ∧
      (predecessors r k (runCalls Graph.empty calls)).1 = .ok r ∧
      (∀ c, c ∈ r0 ↔ EdgeAdded calls c k) ∧
      (∀ c, c ∈ r ↔ c ∈ S ∨ EdgeAdded calls c k) ∧
      (∀ c, c ∈ r ↔ c ∈ S ∨ ∃ u v, mapFind (runCalls Graph.empty calls).mapping_ c = some u ∧
        mapFind (runCalls Graph.empty calls).mapping_ k = some v ∧
        (u, v) ∈ (runCalls Graph.empty calls).edges)) := by
  have hinv : StoreInv (runCalls Graph.empty calls) := StoreInv.init.runCalls calls
  obtain ⟨w, hw⟩ := Option.isSome_iff_exists.1 hk
  constructor
  · obtain ⟨r, hr, hrm⟩ := successors_mem hinv S hw
    obtain ⟨r0, hr0, hr0m⟩ := successors_mem hinv ∅ hw
    obtain ⟨r2, hr2, hr2m⟩ := successors_mem hinv r hw
    have hadj : ∀ b, (∃ v, mapFind (runCalls Graph.empty calls).mapping_ b = some v ∧
        (w, v) ∈ (runCalls Graph.empty calls).edges) ↔ EdgeAdded calls k b := by
      intro b
      constructor
      · rintro ⟨v, hv, he⟩
        exact (edges_from_calls calls k b w v hw hv).1 he
      · intro hadd
        obtain ⟨v, hv⟩ := Option.isSome_iff_exists.1 (edgeAdded_has_node hadd).2
        exact ⟨v, hv, (edges_from_calls calls k b w v hw hv).2 hadd⟩
    have hunion : r = S ∪ r0 := by
      ext x
      rw [hrm x, Finset.mem_union, hr0m x]
      simp
    have hsame : r2 = r := by
      ext x
      rw [hr2m x, hrm x]
      constructor
      · rintro (h | h)
        · exact h
        · exact Or.inr h
      · exact Or.inl
    refine ⟨r, r0, hr, hr0, hunion, ?_, ?_, ?_, ?_, ?_⟩
    · rw [hunion]; exact Finset.subset_union_left
    · rw [hr2, hsame]
    · intro b
      rw [hr0m b, hadj b]
      simp
    · intro b
      rw [hrm b, hadj b]
    · intro b
      rw [hrm b]
      apply or_congr_right
      constructor
      · rintro ⟨v, hv, he⟩
        exact ⟨w, v, hw, hv, he⟩
      · rintro ⟨u, v, hu, hv, he⟩
        rw [hw] at hu; cases hu
        exact ⟨v, hv, he⟩
  · obtain ⟨r, hr, hrm⟩ := predecessors_mem hinv S hw
    obtain ⟨r0, hr0, hr0m⟩ := predecessors_mem hinv ∅ hw
    obtain ⟨r2, hr2, hr2m⟩ := predecessors_mem hinv r hw
    have hadj : ∀ c, (∃ u, mapFind (runCalls Graph.empty calls).mapping_ c = some u ∧
        (u, w) ∈ (runCalls Graph.empty calls).edges) ↔ EdgeAdded calls c k := by
      intro c
      constructor
      · rintro ⟨u, hu, he⟩
        exact (edges_from_calls calls c k u w hu hw).1 he
      · intro hadd
        obtain ⟨u, hu⟩ := Option.isSome_iff_exists.1 (edgeAdded_has_node hadd).1
        exact ⟨u, hu, (edges_from_calls calls c k u w hu hw).2 hadd⟩
    have hunion : r = S ∪ r0 := by
      ext x
      rw [hrm x, Finset.mem_union, hr0m x]
      simp
    have hsame : r2 = r := by
      ext x
      rw [hr2m x, hrm x]
      constructor
      · rintro (h | h)
        · exact h
        · exact Or.inr h
      · exact Or.inl
    refine ⟨r, r0, hr, hr0, hunion, ?_, ?_, ?_, ?_, ?_⟩
    · rw [hunion]; exact Finset.subset_union_left
    · rw [hr2, hsame]
    · intro c
      rw [hr0m c, hadj c]
      simp
    · intro c
      rw [hrm c, hadj c]
    · intro c
      rw [hrm c]
      apply or_congr_right
      constructor
      · rintro ⟨u, hu, he⟩
        exact ⟨u, w, hu, hw, he⟩
      · rintro ⟨u, v, hu, hv, he⟩
        rw [hw] at hv; cases hv
        exact ⟨u, hu, he⟩

theorem adjacency_accumulates_witness :
    (successors {"z"} "a" (runCalls Graph.empty
      [.add_node "a" "h0", .add_node "b" "h1", .add_edge "a" "b"])).1 = .ok {"b", "z"} ∧
    (successors ∅ "a" (runCalls Graph.empty
      [.add_node "a" "h0", .add_node "b" "h1", .add_edge "a" "b"])).1 = .ok {"b"} ∧
    ∃ r r0, (successors {"z"} "a" (runCalls Graph.empty
        [.add_node "a" "h0", .add_node "b" "h1", .add_edge "a" "b"])).1 = .ok r ∧
      (successors ∅ "a" (runCalls Graph.empty
        [.add_node "a" "h0", .add_node "b" "h1", .add_edge "a" "b"])).1 = .ok r0 ∧
      r = {"z"} ∪ r0 ∧ {"z"} ⊆ r ∧
      (successors r "a" (runCalls Graph.empty
        [.add_node "a" "h0", .add_node "b" "h1", .add_edge "a" "b"])).1 = .ok r ∧
      (∀ b, b ∈ r0 ↔ EdgeAdded
        [.add_node "a" "h0", .add_node "b" "h1", .add_edge "a" "b"] "a" b) :=
  ⟨by decide, by decide,
   let ⟨r, r0, h1, h2, h3, h4, h5, h6, _⟩ := (adjacency_accumulates
      [.add_node "a" "h0", .add_node "b" "h1", .add_edge "a" "b"] "a" {"z"} (by decide)).1
   ⟨r, r0, h1, h2, h3, h4, h5, h6⟩⟩

/-! ## Concurrent insertion of distinct keys -/

theorem add_node_eq_critical (k : Path) (h : Hash) (g : Graph) :
    add_node k h g =
      if has_node g k then (.error .assertion, g) else (.ok (), add_node_critical k h g) := rfl

theorem add_node_critical_fresh (k : Path) (h : Hash) (g : Graph)
    (hk : has_node g k = false) :
    add_node_critical k h g = (Call.add_node k h).after g := by
  simp [Call.after, add_node_eq_critical, hk]

theorem stepsOf_cons (p : Path × Hash) (nodes : List (Path × Hash)) :
    stepsOf (p :: nodes) = Step.check p.1 :: Step.insert p.1 p.2 :: stepsOf nodes := by
  simp [stepsOf, List.flatMap_cons]

theorem stepsOf_checked (nodes : List (Path × Hash)) :
    (stepsOf nodes).filterMap Step.checked = nodes.map Prod.fst := by
  induction nodes with
  | nil => rfl
  | cons p nodes ih => rw [stepsOf_cons]; simp [Step.checked, ih]

theorem stepsOf_inserted (nodes : List (Path × Hash)) :
    (stepsOf nodes).filterMap Step.inserted = nodes := by
  induction nodes with
  | nil => rfl
  | cons p nodes ih => rw [stepsOf_cons]; simp [Step.inserted, ih]

theorem mem_filterMap_checked {ss : List Step} {k : Path} :
    k ∈ ss.filterMap Step.checked ↔ Step.check k ∈ ss := by
  rw [List.mem_filterMap]
  constructor
  · rintro ⟨s, hs, he⟩
    cases s with
    | check k2 => simp [Step.checked] at he; rw [← he]; exact hs
    | insert k2 h2 => simp [Step.checked] at he
  · intro h
    exact ⟨_, h, rfl⟩

theorem mem_filterMap_inserted {ss : List Step} {p : Path × Hash} :
    p ∈ ss.filterMap Step.inserted ↔ Step.insert p.1 p.2 ∈ ss := by
  rw [List.mem_filterMap]
  constructor
  · rintro ⟨s, hs, he⟩
    cases s with
    | check k2 => simp [Step.inserted] at he
    | insert k2 h2 => simp [Step.inserted] at he; rw [← he]; exact hs
  · intro h
    exact ⟨_, h, rfl⟩

theorem runSteps_spec (ss : List Step) :
    ∀ (g : Graph) (seen : List Path), StoreInv g →
      (∀ k ∈ seen, Step.check k ∉ ss) →
      (ss.filterMap Step.checked).Nodup →
      ((ss.filterMap Step.inserted).map Prod.fst).Nodup →
      (∀ p ∈ ss.filterMap Step.inserted, has_node g p.1 = false) →
      (∀ k ∈ ss.filterMap Step.checked, has_node g k = false) →
      checksPrecede ss seen = true →
      ∃ g2, runSteps g ss = .ok g2 ∧ StoreInv g2 ∧
        size g2 = size g + (ss.filterMap Step.inserted).length ∧
        g2.edges = g.edges ∧
        (∀ k v, mapFind g.mapping_ k = some v → mapFind g2.mapping_ k = some v) ∧
        (∀ (v : Nat) (x : Vertex), g.vertices[v]? = some x → g2.vertices[v]? = some x) ∧
        (∀ k, has_node g2 k = true →
          has_node g k = true ∨ k ∈ (ss.filterMap Step.inserted).map Prod.fst) ∧
        (∀ p ∈ ss.filterMap Step.inserted,
          has_node g2 p.1 = true ∧ (hash p.1 g2).1 = .ok p.2) := by
  induction ss with
  | nil =>
    intro g seen hinv _ _ _ _ _ _
    exact ⟨g, rfl, hinv, rfl, rfl, fun _ _ h => h, fun _ _ h => h, fun k h => Or.inl h,
      fun p hp => by simp at hp⟩
  | cons s ss ih =>
    intro g seen hinv hseen hchk hins hfresh hfree hprec
    cases s with
    | check k =>
      have hk : has_node g k = false := hfree k (by simp [Step.checked])
      have hchk2 : k ∉ ss.filterMap Step.checked ∧ (ss.filterMap Step.checked).Nodup := by
        simpa [Step.checked] using hchk
      obtain ⟨g2, hrun, hrest⟩ := ih g (k :: seen) hinv
        (by
          intro k2 hk2 hmem
          rcases List.mem_cons.1 hk2 with rfl | hk2
          · exact hchk2.1 (mem_filterMap_checked.2 hmem)
          · exact hseen k2 hk2 (List.mem_cons_of_mem _ hmem))
        hchk2.2
        (by simpa [Step.inserted] using hins)
        (by intro p hp; exact hfresh p (by simpa [Step.inserted] using hp))
        (by intro k2 hk2; exact hfree k2 (by simp [Step.checked, hk2]))
        (by simpa [checksPrecede] using hprec)
      refine ⟨g2, ?_, ?_⟩
      · simp [runSteps, Step.run, hk, hrun]
      · simpa [Step.inserted] using hrest
    | insert k h =>
      have hk : has_node g k = false := hfresh (k, h) (by simp [Step.inserted])
      have hins2 : k ∉ (ss.filterMap Step.inserted).map Prod.fst ∧
          ((ss.filterMap Step.inserted).map Prod.fst).Nodup := by
        simpa [Step.inserted] using hins
      have hprec2 : k ∈ seen ∧ checksPrecede ss seen = true := by
        simpa [checksPrecede] using hprec
      have hg1 : add_node_critical k h g = (Call.add_node k h).after g :=
        add_node_critical_fresh k h g hk
      have hinv1 : StoreInv ((Call.add_node k h).after g) := hinv.after _
      have hlook := add_node_fresh_lookup g k h hk
      have hnode1 : ∀ k2, has_node ((Call.add_node k h).after g) k2 = true →
          has_node g k2 = true ∨ k2 = k := by
        intro k2 h2
        simp only [Call.after] at h2
        rw [add_node_fresh k h g hk] at h2
        have h3 : (mapFind (g.mapping_ ++ [(k, g.vertices.length)]) k2).isSome = true := h2
        rw [mapFind_append_single] at h3
        cases hf : mapFind g.mapping_ k2 with
        | some w => left; simp [has_node, hf]
        | none =>
          right
          rw [hf] at h3
          by_cases hkk : k2 = k
          · exact hkk
          · simp [hkk] at h3
      have hfalse1 : ∀ k2, has_node g k2 = false → k2 ≠ k →
          has_node ((Call.add_node k h).after g) k2 = false := by
        intro k2 h2 hne
        cases h3 : has_node ((Call.add_node k h).after g) k2 with
        | false => rfl
        | true =>
          rcases hnode1 k2 h3 with h4 | h4
          · rw [h2] at h4; cases h4
          · exact absurd h4 hne
      obtain ⟨g2, hrun, hinv2, hsize, hedges, hfind, hvert, hnode, hres⟩ :=
        ih ((Call.add_node k h).after g) seen hinv1
          (fun k2 hk2 hmem => hseen k2 hk2 (List.mem_cons_of_mem _ hmem))
          (by simpa [Step.checked] using hchk)
          hins2.2
          (by
            intro p hp
            apply hfalse1 p.1 (hfresh p (by simp [Step.inserted, hp]))
            intro he
            exact hins2.1 (he ▸ List.mem_map_of_mem Prod.fst hp))
          (by
            intro k2 hk2
            apply hfalse1 k2 (hfree k2 (by simpa [Step.checked] using hk2))
            intro he
            exact hseen k hprec2.1 (List.mem_cons_of_mem _ (mem_filterMap_checked.1 (he ▸ hk2))))
          hprec2.2
      refine ⟨g2, ?_, hinv2, ?_, ?_, ?_, ?_, ?_, ?_⟩
      · simp [runSteps, Step.run, hg1, hrun]
      · rw [hsize]
        have : size ((Call.add_node k h).after g) = size g + 1 := by
          simp only [Call.after]
          rw [size_add_node, hk]; simp
        rw [this]
        simp [Step.inserted]
        omega
      · rw [hedges]
        simp only [Call.after]
        rw [add_node_fresh k h g hk]
      · intro k2 v hv
        exact hfind k2 v (mapFind_after _ hv)
      · intro v x hx
        exact hvert v x (vertex_after _ hx)
      · intro k2 h2
        have hcons : (Step.insert k h :: ss).filterMap Step.inserted
            = (k, h) :: ss.filterMap Step.inserted := rfl
        rw [hcons, List.map_cons]
        rcases hnode k2 h2 with h3 | h3
        · rcases hnode1 k2 h3 with h4 | h4
          · exact Or.inl h4
          · right; rw [h4]; exact List.mem_cons_self _ _
        · right; exact List.mem_cons_of_mem _ h3
      · intro p hp
        have hp2 : p = (k, h) ∨ p ∈ ss.filterMap Step.inserted := by
          simpa [Step.inserted] using hp
        rcases hp2 with rfl | hp2
        · obtain ⟨v, x, hf, hx, hh⟩ := (hash_eq_ok_iff k h _).1 hlook.2.2
          have hf1 : mapFind ((Call.add_node k h).after g).mapping_ k = some v := hf
          have hx1 : ((Call.add_node k h).after g).vertices[v]? = some x := hx
          refine ⟨?_, (hash_eq_ok_iff k h _).2 ⟨v, x, hfind k v hf1, hvert v x hx1, hh⟩⟩
          simp [has_node, hfind k v hf1]
        · exact hres p hp2

/-- C13: let `add_node` be called once for each of `N` pairs with pairwise
distinct keys, none of them indexed yet, by any number of concurrent callers,
in a state reached from the empty graph.  Each critical section being one
atomic step, under every interleaving no assertion fails and the final graph
has exactly `N` more vertices (`N` from the empty graph), every key is
indexed with its hash, no two keys share a handle, every handle is below
`size()`, and nothing else changed.  A `check` step followed at once by the
`insert` step of the same call is the sequential `add_node`. -/
theorem concurrent_add_node_no_lost_update (before : List Call)
    (nodes : List (Path × Hash)) (schedule : List Step)
    (hdistinct : (nodes.map Prod.fst).Nodup)
    (hfresh : ∀ p ∈ nodes, has_node (runCalls Graph.empty before) p.1 = false)
    (hsched : Interleaving nodes schedule) :
    (∀ (g : Graph) (k : Path) (h : Hash),
      runSteps g [Step.check k, Step.insert k h] =
        match add_node k h g with
        | (.ok _, g1) => .ok g1
        | (.error f, _) => .error f) ∧
    ∃ g2, runSteps (runCalls Graph.empty before) schedule = .ok g2 ∧
      size g2 = size (runCalls Graph.empty before) + nodes.length ∧
      (∀ p ∈ nodes, has_node g2 p.1 = true ∧ (hash p.1 g2).1 = .ok p.2) ∧
      (∀ k1 k2 v, mapFind g2.mapping_ k1 = some v → mapFind g2.mapping_ k2 = some v →
        k1 = k2) ∧
      (∀ k v, mapFind g2.mapping_ k = some v → v < size g2) ∧
      (∀ k, has_node g2 k = true →
        has_node (runCalls Graph.empty before) k = true ∨ k ∈ nodes.map Prod.fst) ∧
      (∀ k v, mapFind (runCalls Graph.empty before).mapping_ k = some v →
        mapFind g2.mapping_ k = some v) ∧
      g2.edges = (runCalls Graph.empty before).edges := by
  constructor
  · intro g k h
    cases hk : has_node g k with
    | true => simp [runSteps, Step.run, hk, add_node_existing k h g hk]
    | false => simp [runSteps, Step.run, hk, add_node_eq_critical]
  · have hinv : StoreInv (runCalls Graph.empty before) := StoreInv.init.runCalls before
    generalize runCalls Graph.empty before = g at hinv hfresh
    obtain ⟨hperm, hprec⟩ := hsched
    have hpc : (schedule.filterMap Step.checked).Perm (nodes.map Prod.fst) := by
      have := hperm.filterMap Step.checked
      rwa [stepsOf_checked] at this
    have hpi : (schedule.filterMap Step.inserted).Perm nodes := by
      have := hperm.filterMap Step.inserted
      rwa [stepsOf_inserted] at this
    have hfree : ∀ k ∈ nodes.map Prod.fst, has_node g k = false := by
      intro k hk
      obtain ⟨p, hp, rfl⟩ := List.mem_map.1 hk
      exact hfresh p hp
    obtain ⟨g2, hrun, hinv2, hsize, hedges, hfind, _, hnode, hres⟩ :=
      runSteps_spec schedule g [] hinv (fun k hk => by simp at hk)
        (hpc.nodup_iff.2 hdistinct)
        ((hpi.map Prod.fst).nodup_iff.2 hdistinct)
        (fun p hp => hfresh p (hpi.mem_iff.1 hp))
        (fun k hk => hfree k (hpc.mem_iff.1 hk))
        hprec
    refine ⟨g2, hrun, ?_, ?_, ?_, ?_, ?_, hfind, hedges⟩
    · rw [hsize, hpi.length_eq]
    · intro p hp
      exact hres p (hpi.mem_iff.2 hp)
    · intro k1 k2 v h1 h2
      exact hinv2.find_inj h1 h2
    · intro k v hv
      exact hinv2.find_lt hv
    · intro k hk
      rcases hnode k hk with h | h
      · exact Or.inl h
      · exact Or.inr ((hpi.map Prod.fst).mem_iff.1 h)

theorem concurrent_add_node_no_lost_update_witness :
    runSteps Graph.empty
      [Step.check "a", Step.check "b", Step.insert "b" "h1", Step.insert "a" "h0"]
      = .ok { vertices := [⟨"b", "h1"⟩, ⟨"a", "h0"⟩], edges := [],
              mapping_ := [("b", 0), ("a", 1)], distance_matrix_ := none } ∧
    ∃ g2, runSteps (runCalls Graph.empty [])
        [Step.check "a", Step.check "b", Step.insert "b" "h1", Step.insert "a" "h0"]
        = .ok g2 ∧
      size g2 = size (runCalls Graph.empty []) + [("a", "h0"), ("b", "h1")].length ∧
      (∀ p ∈ [("a", "h0"), ("b", "h1")],
        has_node g2 p.1 = true ∧ (hash p.1 g2).1 = .ok p.2) ∧
      (∀ k1 k2 v, mapFind g2.mapping_ k1 = some v → mapFind g2.mapping_ k2 = some v →
        k1 = k2) :=
  ⟨by decide,
   let ⟨g2, h1, h2, h3, h4, _⟩ := (concurrent_add_node_no_lost_update []
      [("a", "h0"), ("b", "h1")]
      [Step.check "a", Step.check "b", Step.insert "b" "h1", Step.insert "a" "h0"]
      (by decide) (by decide) ⟨by decide, by decide⟩).2
   ⟨g2, h1, h2, h3, h4⟩⟩

end Binmap
